import Mathlib

/-!
Verification of the causal-graph engine of `causal/structured_output.go`:
variable-name normalization, the edge-list construction, the depth-first
cycle search with canonicalization and deduplication, and the final
length-then-lexicographic stable sort of the closed loops.

The Go functions are embedded shallowly: the `map[string][]string` of
outgoing edges becomes an association list built in insertion order, the
recursive `search` becomes a fuel-indexed recursion (the fuel is fixed
large enough that it never runs out on the recursion depths the Go code
can reach), and the nondeterministic iteration order over the map's keys
in `findCycles` becomes an explicit `roots` parameter.
-/

namespace Causal

/-- Drop leading whitespace characters. -/
def trimLeft : List Char → List Char
  | [] => []
  | c :: rest => if c.isWhitespace then trimLeft rest else c :: rest

/-- Drop trailing whitespace characters. -/
def trimRight (l : List Char) : List Char := (trimLeft l.reverse).reverse

/-- Normalization applied to every variable name before it is used as a
graph vertex: `strings.TrimSpace(strings.ToLower(x))`, written on the
character-list model of strings (lower-case each character, then trim
whitespace from both ends). -/
def normalizeVar (s : String) : String := ⟨trimRight (trimLeft (s.data.map Char.toLower))⟩

/-- `RelationshipEntry` from `structured_output.go`. -/
structure RelationshipEntry where
  Variable : String
  Polarity : String
  PolarityReasoning : String
deriving DecidableEq

/-- `Chain` from `structured_output.go`. -/
structure Chain where
  InitialVariable : String
  Relationships : List RelationshipEntry
  Reasoning : String
deriving DecidableEq

/-- `Map` from `structured_output.go`. -/
structure Map where
  Title : String
  Explanation : String
  CausalChains : List Chain
deriving DecidableEq

/-- `Relationship` from `structured_output.go` (flat edge shape). -/
structure Relationship where
  From : String
  To : String
  Polarity : String
  Reasoning : String
  PolarityReasoning : String
deriving DecidableEq

/-- `NewMap` from `structured_output.go`: each flat relationship becomes a
one-entry causal chain. -/
def NewMap (relationships : List Relationship) : Map :=
  { Title := "", Explanation := "",
    CausalChains := relationships.map fun r =>
      { InitialVariable := r.From
        Relationships := [{ Variable := r.To, Polarity := r.Polarity,
                            PolarityReasoning := r.PolarityReasoning }]
        Reasoning := "" } }

/-- `(*Map).Variables`: the set of normalized initial and entry variable
names of all chains.  The Go `Set[string]` is a hash set observed only
through membership and set equality, so it is embedded as a `Finset`. -/
def Map.Variables (m : Map) : Finset String :=
  m.CausalChains.foldl
    (fun vars c =>
      c.Relationships.foldl (fun vars next => insert (normalizeVar next.Variable) vars)
        (insert (normalizeVar c.InitialVariable) vars))
  ∅

/-- The outgoing-edge adjacency map `map[string][]string`, embedded as an
association list whose keys appear in first-insertion order and whose
per-key neighbor lists are in insertion order (exactly the per-key order
the Go map produces). -/
abbrev Graph := List (String × List String)

/-- `s.edges[v]` : neighbor list of `v`, `[]` when absent. -/
def lookupEdges (g : Graph) (v : String) : List String := (g.lookup v).getD []

/-- `outgoing[from] = append(outgoing[from], to)`. -/
def addEdge (g : Graph) (f t : String) : Graph :=
  match g with
  | [] => [(f, [t])]
  | (k, vs) :: rest => if k = f then (k, vs ++ [t]) :: rest else (k, vs) :: addEdge rest f t

/-- The directed edges contributed by one chain, in order: the edge-list
construction loop inside `(*Map).Loops` (`from` is the initial variable
for the first entry and the previous entry's variable afterwards, both
endpoints normalized). -/
def chainEdges (initial : String) : List RelationshipEntry → List (String × String)
  | [] => []
  | r :: rest => (normalizeVar initial, normalizeVar r.Variable) :: chainEdges r.Variable rest

/-- All directed edges of the map, in chain order. -/
def Map.edgeList (m : Map) : List (String × String) :=
  (m.CausalChains.map fun c => chainEdges c.InitialVariable c.Relationships).flatten

/-- The adjacency map built at the top of `(*Map).Loops`. -/
def Map.outgoing (m : Map) : Graph :=
  m.edgeList.foldl (fun g e => addEdge g e.1 e.2) []

/-- The keys of the adjacency map, in first-insertion order. -/
def keys (g : Graph) : List String := g.map Prod.fst

/-- Lexicographic comparison of character lists by code point.  UTF-8 is
order-preserving, so this is exactly Go's bytewise `<` on strings. -/
def charListLt : List Char → List Char → Bool
  | [], [] => false
  | [], _ :: _ => true
  | _ :: _, [] => false
  | a :: as, b :: bs =>
    if a.toNat < b.toNat then true
    else if b.toNat < a.toNat then false
    else charListLt as bs

/-- Go's `<` on strings. -/
def strLt (a b : String) : Bool := charListLt a.data b.data

/-- `slices.Min` on a vertex path (the Go call panics on `[]`; the code
only ever applies it to nonempty paths, and the `""` default is never
used). -/
def listMin : List String → String
  | [] => ""
  | x :: xs => xs.foldl (fun m v => if strLt v m then v else m) x

/-- The rotation performed by `addCycle`: rotate the path so that the
lowest-named variable is first. -/
def canonicalRotation (path : List String) : List String :=
  let i := path.indexOf (listMin path)
  path.drop i ++ path.take i

/-- `(*searchState).addCycle`: canonicalize the discovered path and append
it to `found` unless an identical cycle was already recorded. -/
def addCycle (path : List String) (found : List (List String)) : List (List String) :=
  let cycle := canonicalRotation path
  if cycle ∈ found then found else found ++ [cycle]

/-- The mutable state of `searchState` (`edges` is passed separately). -/
structure SearchState where
  visited : List String
  found : List (List String)

/-- `(*searchState).search`, fuel-indexed: mark `v` visited, extend the
path, and walk the neighbor list of `v`, recursing into unvisited
neighbors and recording a cycle whenever the neighbor already occurs in
the path. -/
def search (g : Graph) : Nat → SearchState → List String → String → SearchState
  | 0, st, _, _ => st
  | fuel + 1, st, path, v =>
    let path' := path ++ [v]
    (lookupEdges g v).foldl
      (fun st nb =>
        let st1 := if nb ∈ st.visited then st else search g fuel st path' nb
        if nb ∈ path' then
          { st1 with found := addCycle (path'.drop (path'.indexOf nb)) st1.found }
        else st1)
      ⟨v :: st.visited, st.found⟩

/-- One iteration of the neighbor loop of `search`, named for reasoning. -/
def searchStep (g : Graph) (fuel : Nat) (path : List String)
    (st : SearchState) (nb : String) : SearchState :=
  let st1 := if nb ∈ st.visited then st else search g fuel st path nb
  if nb ∈ path then
    { st1 with found := addCycle (path.drop (path.indexOf nb)) st1.found }
  else st1

theorem search_succ (g : Graph) (fuel : Nat) (st : SearchState) (path : List String)
    (v : String) :
    search g (fuel + 1) st path v =
      (lookupEdges g v).foldl (searchStep g fuel (path ++ [v])) ⟨v :: st.visited, st.found⟩ :=
  rfl

/-- Fuel that strictly exceeds the number of vertex occurrences in the
graph, hence the depth any nest of `search` calls can reach (each nested
call marks a previously unvisited vertex). -/
def fuelFor (g : Graph) : Nat := g.foldl (fun n e => n + e.2.length + 1) 1

/-- `findCycles`: run one search per root with a fresh `visited` set and a
fresh path, accumulating `found` across roots.  The Go code iterates the
keys of the `outgoing` map in unspecified order; the order is the
explicit `roots` argument here. -/
def findCycles (g : Graph) (roots : List String) : List (List String) :=
  roots.foldl (fun found v => (search g (fuelFor g) ⟨[], found⟩ [] v).found) []

/-- Closing a loop for display: repeat the first element at the end
(`append(loop, loop[0])`; the Go code never closes an empty loop). -/
def closeLoop (l : List String) : List String := l ++ l.take 1

/-- `cmp.Compare` on strings (bytewise lexicographic). -/
def cmpStr (a b : String) : Ordering :=
  if strLt a b then .lt else if strLt b a then .gt else .eq

/-- `slices.Compare` on string slices. -/
def listCompare : List String → List String → Ordering
  | [], [] => .eq
  | [], _ :: _ => .lt
  | _ :: _, [] => .gt
  | a :: as, b :: bs =>
    match cmpStr a b with
    | .eq => listCompare as bs
    | o => o

/-- The comparison function passed to `slices.SortStableFunc` in
`(*Map).Loops`: length first, then `slices.Compare`. -/
def loopCmp (a b : List String) : Ordering :=
  if a.length < b.length then .lt
  else if b.length < a.length then .gt
  else listCompare a b

/-- Stable insertion of one loop into an already sorted list: the new
element goes after every element it does not compare strictly less
than. -/
def insertLoop (x : List String) : List (List String) → List (List String)
  | [] => [x]
  | y :: ys => if loopCmp x y = .lt then x :: y :: ys else y :: insertLoop x ys

/-- `slices.SortStableFunc` with `loopCmp`, embedded as a stable insertion
sort (any two stable sorts with the same comparator agree). -/
def sortLoops (l : List (List String)) : List (List String) :=
  l.foldl (fun acc x => insertLoop x acc) []

/-- `(*Map).Loops` with the root iteration order made explicit. -/
def Map.LoopsWith (m : Map) (roots : List String) : List (List String) :=
  let g := m.outgoing
  let allLoops := findCycles g roots
  sortLoops (allLoops.map closeLoop)

/-- `(*Map).Loops`, iterating roots in first-insertion order. -/
def Map.Loops (m : Map) : List (List String) := m.LoopsWith (keys m.outgoing)

/-! ## Specification-side predicates -/

/-- `a -> b` is an edge of the adjacency map. -/
def isEdge (g : Graph) (a b : String) : Prop := b ∈ lookupEdges g a

instance (g : Graph) : DecidableRel (isEdge g) := fun a b =>
  inferInstanceAs (Decidable (b ∈ lookupEdges g a))

/-- Executable test that every consecutive pair of the list is an edge. -/
def chainB (g : Graph) : List String → Bool
  | [] => true
  | [_] => true
  | a :: b :: rest => decide (isEdge g a b) && chainB g (b :: rest)

/-- Every consecutive pair of the list is an edge of `g`. -/
def ChainOk (g : Graph) (l : List String) : Prop := chainB g l = true

instance (g : Graph) (l : List String) : Decidable (ChainOk g l) :=
  inferInstanceAs (Decidable (_ = _))

/-- `c` is a simple cycle of `g`, written as a nonempty duplicate-free
vertex sequence each of whose consecutive pairs — including the closing
pair from the last vertex back to the first — is an edge. -/
def IsCycleOf (g : Graph) (c : List String) : Prop :=
  c ≠ [] ∧ c.Nodup ∧ ChainOk g (closeLoop c)

instance (g : Graph) (c : List String) : Decidable (IsCycleOf g c) :=
  inferInstanceAs (Decidable (_ ∧ _ ∧ _))

/-- `c` starts with its least vertex (the canonical rotation chosen by
`addCycle`). -/
def IsCanonical (c : List String) : Prop := c.head? = some (listMin c)

instance (c : List String) : Decidable (IsCanonical c) :=
  inferInstanceAs (Decidable (_ = _))

/-! ## Properties of the string order -/

theorem charListLt_irrefl (l : List Char) : charListLt l l = false := by
  induction l with
  | nil => rfl
  | cons c rest ih => simp [charListLt, ih]

theorem charEq_of_toNat_eq {c d : Char} (h : c.toNat = d.toNat) : c = d :=
  Char.eq_of_val_eq (UInt32.ext h)

theorem charListLt_antisymm {a b : List Char} (h₁ : charListLt a b = false)
    (h₂ : charListLt b a = false) : a = b := by
  induction a generalizing b with
  | nil => cases b with
    | nil => rfl
    | cons c cs => simp [charListLt] at h₁
  | cons c cs ih =>
    cases b with
    | nil => simp [charListLt] at h₂
    | cons d ds =>
      simp only [charListLt] at h₁ h₂
      rcases Nat.lt_trichotomy c.toNat d.toNat with h | h | h
      · simp [h] at h₁
      · obtain rfl : c = d := charEq_of_toNat_eq h
        simp [Nat.lt_irrefl] at h₁ h₂
        exact congrArg (c :: ·) (ih h₁ h₂)
      · simp [h] at h₂

theorem charListLt_asymm {a b : List Char} (h : charListLt a b = true) :
    charListLt b a = false := by
  induction a generalizing b with
  | nil =>
    cases b with
    | nil => simp [charListLt] at h
    | cons d ds => simp [charListLt]
  | cons c cs ih =>
    cases b with
    | nil => simp [charListLt] at h
    | cons d ds =>
      simp only [charListLt] at h ⊢
      rcases Nat.lt_trichotomy c.toNat d.toNat with hcd | hcd | hcd
      · simp [hcd, Nat.lt_asymm hcd]
      · obtain rfl : c = d := charEq_of_toNat_eq hcd
        simp only [Nat.lt_irrefl, if_false] at h ⊢
        exact ih h
      · simp [hcd, Nat.lt_asymm hcd] at h

theorem charListLt_trans {a b c : List Char} (h₁ : charListLt a b = true)
    (h₂ : charListLt b c = true) : charListLt a c = true := by
  induction a generalizing b c with
  | nil =>
    cases c with
    | nil =>
      cases b with
      | nil => exact h₁
      | cons d ds => simp [charListLt] at h₂
    | cons e es => simp [charListLt]
  | cons x xs ih =>
    cases b with
    | nil => simp [charListLt] at h₁
    | cons y ys =>
      cases c with
      | nil => simp [charListLt] at h₂
      | cons z zs =>
        simp only [charListLt] at h₁ h₂ ⊢
        rcases Nat.lt_trichotomy x.toNat y.toNat with hxy | hxy | hxy
        · rcases Nat.lt_trichotomy y.toNat z.toNat with hyz | hyz | hyz
          · simp [show x.toNat < z.toNat by omega]
          · simp [show x.toNat < z.toNat by omega]
          · simp [show ¬ y.toNat < z.toNat by omega, hyz] at h₂
        · obtain rfl : x = y := charEq_of_toNat_eq hxy
          simp only [Nat.lt_irrefl, if_false] at h₁
          rcases Nat.lt_trichotomy x.toNat z.toNat with hxz | hxz | hxz
          · simp [hxz]
          · obtain rfl : x = z := charEq_of_toNat_eq hxz
            simp only [Nat.lt_irrefl, if_false] at h₂ ⊢
            exact ih h₁ h₂
          · simp [show ¬ x.toNat < z.toNat by omega, hxz] at h₂
        · simp [show ¬ x.toNat < y.toNat by omega, hxy] at h₁

theorem strLt_irrefl (a : String) : strLt a a = false := charListLt_irrefl _

theorem strLt_antisymm {a b : String} (h₁ : strLt a b = false) (h₂ : strLt b a = false) :
    a = b := by
  apply String.ext
  exact charListLt_antisymm h₁ h₂

theorem strLt_asymm {a b : String} (h : strLt a b = true) : strLt b a = false :=
  charListLt_asymm h

theorem strLt_trans {a b c : String} (h₁ : strLt a b = true) (h₂ : strLt b c = true) :
    strLt a c = true := charListLt_trans h₁ h₂

/-! ## Properties of the loop comparator -/

theorem cmpStr_eq_iff {a b : String} : cmpStr a b = .eq ↔ a = b := by
  constructor
  · intro h
    unfold cmpStr at h
    split_ifs at h with h₁ h₂
    exact strLt_antisymm (by simpa using h₁) (by simpa using h₂)
  · rintro rfl
    simp [cmpStr, strLt_irrefl]

theorem cmpStr_swap (a b : String) : (cmpStr a b).swap = cmpStr b a := by
  unfold cmpStr
  rcases h : strLt a b with _ | _
  · rcases h' : strLt b a with _ | _
    · obtain rfl := strLt_antisymm h h'
      simp [Ordering.swap]
    · simp [h, h', Ordering.swap]
  · have h' := strLt_asymm h
    simp [h, h', Ordering.swap]

theorem cmpStr_lt_iff {a b : String} : cmpStr a b = .lt ↔ strLt a b = true := by
  unfold cmpStr
  split_ifs with h₁ h₂ <;> simp [h₁]

theorem cmpStr_lt_trans {a b c : String} (h₁ : cmpStr a b = .lt) (h₂ : cmpStr b c = .lt) :
    cmpStr a c = .lt := by
  rw [cmpStr_lt_iff] at h₁ h₂ ⊢
  exact strLt_trans h₁ h₂

theorem listCompare_eq_iff {a b : List String} : listCompare a b = .eq ↔ a = b := by
  constructor
  · intro h
    induction a generalizing b with
    | nil => cases b with
      | nil => rfl
      | cons y ys => simp [listCompare] at h
    | cons x xs ih =>
      cases b with
      | nil => simp [listCompare] at h
      | cons y ys =>
        simp only [listCompare] at h
        rcases hc : cmpStr x y with _ | _ | _ <;> rw [hc] at h
        · exact absurd h (by simp)
        · obtain rfl := cmpStr_eq_iff.mp hc
          exact congrArg (x :: ·) (ih h)
        · exact absurd h (by simp)
  · rintro rfl
    induction a with
    | nil => rfl
    | cons x xs ih => simp [listCompare, cmpStr_eq_iff.mpr rfl, ih]

theorem listCompare_swap (a b : List String) : (listCompare a b).swap = listCompare b a := by
  induction a generalizing b with
  | nil => cases b <;> rfl
  | cons x xs ih =>
    cases b with
    | nil => rfl
    | cons y ys =>
      have hc2 : cmpStr y x = (cmpStr x y).swap := (cmpStr_swap x y).symm
      have h2 := ih ys
      rcases hc : cmpStr x y with _ | _ | _ <;>
        rw [hc] at hc2 <;>
        simp_all [listCompare, Ordering.swap]

theorem listCompare_lt_trans {a b c : List String} (h₁ : listCompare a b = .lt)
    (h₂ : listCompare b c = .lt) : listCompare a c = .lt := by
  induction a generalizing b c with
  | nil =>
    cases b with
    | nil => exact absurd h₁ (by simp [listCompare])
    | cons y ys =>
      cases c with
      | nil => simp [listCompare] at h₂
      | cons z zs => simp [listCompare]
  | cons x xs ih =>
    cases b with
    | nil => simp [listCompare] at h₁
    | cons y ys =>
      cases c with
      | nil => simp [listCompare] at h₂
      | cons z zs =>
        rcases hxy : cmpStr x y with _ | _ | _
        · rcases hyz : cmpStr y z with _ | _ | _
          · simp [listCompare, cmpStr_lt_trans hxy hyz]
          · obtain rfl := cmpStr_eq_iff.mp hyz
            simp [listCompare, hxy]
          · simp [listCompare, hyz] at h₂
        · obtain rfl := cmpStr_eq_iff.mp hxy
          simp only [listCompare, hxy] at h₁
          rcases hyz : cmpStr x z with _ | _ | _
          · simp [listCompare, hyz]
          · simp only [listCompare, hyz] at h₂ ⊢
            exact ih h₁ h₂
          · simp [listCompare, hyz] at h₂
        · simp [listCompare, hxy] at h₁

theorem loopCmp_eq_iff {a b : List String} : loopCmp a b = .eq ↔ a = b := by
  constructor
  · intro h
    unfold loopCmp at h
    split_ifs at h with h₁ h₂
    exact listCompare_eq_iff.mp h
  · rintro rfl
    simp [loopCmp, listCompare_eq_iff.mpr rfl]

theorem loopCmp_swap (a b : List String) : (loopCmp a b).swap = loopCmp b a := by
  unfold loopCmp
  rcases Nat.lt_trichotomy a.length b.length with h | h | h
  · simp [h, Nat.lt_asymm h, Ordering.swap]
  · simp [h, Nat.lt_irrefl, listCompare_swap a b]
  · simp [h, Nat.lt_asymm h, Ordering.swap]

theorem loopCmp_lt_cases {a b : List String} (h : loopCmp a b = .lt) :
    a.length < b.length ∨ (a.length = b.length ∧ listCompare a b = .lt) := by
  unfold loopCmp at h
  split_ifs at h with h₁ h₂
  · exact Or.inl h₁
  · exact Or.inr ⟨by omega, h⟩

theorem loopCmp_lt_intro {a b : List String}
    (h : a.length < b.length ∨ (a.length = b.length ∧ listCompare a b = .lt)) :
    loopCmp a b = .lt := by
  unfold loopCmp
  rcases h with h | ⟨h, h'⟩
  · simp [h]
  · simp [h, Nat.lt_irrefl, h']

theorem loopCmp_lt_trans {a b c : List String} (h₁ : loopCmp a b = .lt)
    (h₂ : loopCmp b c = .lt) : loopCmp a c = .lt := by
  apply loopCmp_lt_intro
  rcases loopCmp_lt_cases h₁ with g₁ | ⟨g₁, g₁'⟩ <;>
    rcases loopCmp_lt_cases h₂ with g₂ | ⟨g₂, g₂'⟩
  · exact Or.inl (by omega)
  · exact Or.inl (by omega)
  · exact Or.inl (by omega)
  · exact Or.inr ⟨by omega, listCompare_lt_trans g₁' g₂'⟩

/-- The "not greater" relation induced by `loopCmp`, the order in which
`Loops` returns its result. -/
def loopLe (a b : List String) : Prop := loopCmp a b ≠ .gt

theorem loopLe_of_not_lt {a b : List String} (h : ¬ loopCmp a b = .lt) : loopLe b a := by
  intro hgt
  rw [← loopCmp_swap a b] at hgt
  rcases hc : loopCmp a b with _ | _ | _ <;> rw [hc] at hgt <;> simp [Ordering.swap] at hgt
  exact h hc

theorem loopLe_trans {a b c : List String} (h₁ : loopLe a b) (h₂ : loopLe b c) : loopLe a c := by
  intro hgt
  rcases hab : loopCmp a b with _ | _ | _
  · rcases hbc : loopCmp b c with _ | _ | _
    · rw [loopCmp_lt_trans hab hbc] at hgt
      exact absurd hgt (by simp)
    · obtain rfl := loopCmp_eq_iff.mp hbc
      rw [hab] at hgt
      exact absurd hgt (by simp)
    · exact h₂ hbc
  · obtain rfl := loopCmp_eq_iff.mp hab
    exact h₂ hgt
  · exact h₁ hab

theorem loopLe_antisymm {a b : List String} (h₁ : loopLe a b) (h₂ : loopLe b a) : a = b := by
  rcases hab : loopCmp a b with _ | _ | _
  · exfalso
    apply h₂
    rw [← loopCmp_swap a b, hab]
    rfl
  · exact loopCmp_eq_iff.mp hab
  · exact absurd hab h₁

/-! ## The stable sort -/

theorem insertLoop_perm (x : List String) (l : List (List String)) :
    List.Perm (insertLoop x l) (x :: l) := by
  induction l with
  | nil => exact List.Perm.refl _
  | cons y ys ih =>
    unfold insertLoop
    split_ifs with hx
    · exact List.Perm.refl _
    · exact (ih.cons y).trans (List.Perm.swap x y ys)

theorem insertLoop_sorted (x : List String) {l : List (List String)}
    (h : l.Pairwise loopLe) : (insertLoop x l).Pairwise loopLe := by
  induction l with
  | nil => simp [insertLoop]
  | cons y ys ih =>
    rw [List.pairwise_cons] at h
    unfold insertLoop
    split_ifs with hx
    · rw [List.pairwise_cons]
      refine ⟨?_, List.pairwise_cons.mpr h⟩
      intro z hz
      rcases List.mem_cons.mp hz with rfl | hz
      · intro hgt
        rw [hx] at hgt
        cases hgt
      · exact loopLe_trans (by intro hgt; rw [hx] at hgt; cases hgt) (h.1 z hz)
    · rw [List.pairwise_cons]
      refine ⟨?_, ih h.2⟩
      intro z hz
      rcases List.mem_cons.mp ((insertLoop_perm x ys).mem_iff.mp hz) with rfl | hz
      · exact loopLe_of_not_lt hx
      · exact h.1 z hz

theorem sortLoops_perm (l : List (List String)) : List.Perm (sortLoops l) l := by
  suffices h : ∀ (l acc : List (List String)),
      List.Perm (l.foldl (fun acc x => insertLoop x acc) acc) (acc ++ l) by
    simpa using h l []
  intro l
  induction l with
  | nil => intro acc; simp
  | cons x xs ih =>
    intro acc
    refine (ih (insertLoop x acc)).trans ?_
    exact ((insertLoop_perm x acc).append_right xs).trans List.perm_middle.symm

theorem sortLoops_sorted (l : List (List String)) : (sortLoops l).Pairwise loopLe := by
  suffices h : ∀ (l acc : List (List String)), acc.Pairwise loopLe →
      (l.foldl (fun acc x => insertLoop x acc) acc).Pairwise loopLe by
    exact h l [] (by simp)
  intro l
  induction l with
  | nil => intro acc hacc; simpa using hacc
  | cons x xs ih =>
    intro acc hacc
    exact ih (insertLoop x acc) (insertLoop_sorted x hacc)

theorem sortLoops_eq_of_perm {l₁ l₂ : List (List String)} (h : List.Perm l₁ l₂) :
    sortLoops l₁ = sortLoops l₂ := by
  haveI : IsAntisymm (List String) loopLe := ⟨fun _ _ => loopLe_antisymm⟩
  exact List.eq_of_perm_of_sorted
    ((sortLoops_perm l₁).trans (h.trans (sortLoops_perm l₂).symm))
    (sortLoops_sorted l₁) (sortLoops_sorted l₂)

/-! ## listMin and the canonical rotation -/

theorem foldlMin_not_lt :
    ∀ (xs : List String) (acc y : String), y ∈ acc :: xs →
      strLt y (xs.foldl (fun m v => if strLt v m then v else m) acc) = false := by
  intro xs
  induction xs with
  | nil =>
    intro acc y hy
    obtain rfl : y = acc := by simpa using hy
    exact strLt_irrefl _
  | cons v vs ih =>
    intro acc y hy
    simp only [List.foldl_cons]
    have hhead := ih (if strLt v acc then v else acc) (if strLt v acc then v else acc)
      (List.mem_cons_self _ _)
    rcases List.mem_cons.mp hy with rfl | hy'
    · -- y is the old accumulator
      by_cases hva : strLt v y = true
      · rw [if_pos hva] at hhead ⊢
        cases hacc : strLt y (vs.foldl (fun m v => if strLt v m then v else m) v) with
        | false => rfl
        | true => simp [strLt_trans hva hacc] at hhead
      · rw [if_neg hva] at hhead ⊢
        exact hhead
    · rcases List.mem_cons.mp hy' with rfl | hy''
      · -- y is the new element v
        by_cases hva : strLt y acc = true
        · rw [if_pos hva] at hhead ⊢
          exact hhead
        · rw [if_neg hva] at hhead ⊢
          cases hvM : strLt y (vs.foldl (fun m v => if strLt v m then v else m) acc) with
          | false => rfl
          | true =>
            exfalso
            by_cases hav : strLt acc y = true
            · simp [strLt_trans hav hvM] at hhead
            · obtain rfl : y = acc :=
                strLt_antisymm (by simpa using hva) (by simpa using hav)
              simp [hvM] at hhead
      · exact ih _ y (List.mem_cons_of_mem _ hy'')

theorem foldlMin_mem :
    ∀ (xs : List String) (acc : String),
      xs.foldl (fun m v => if strLt v m then v else m) acc ∈ acc :: xs := by
  intro xs
  induction xs with
  | nil => intro acc; simp
  | cons v vs ih =>
    intro acc
    simp only [List.foldl_cons]
    rcases List.mem_cons.mp (ih (if strLt v acc then v else acc)) with h | h
    · rw [h]
      split_ifs <;> simp
    · exact List.mem_cons_of_mem _ (List.mem_cons_of_mem _ h)

theorem listMin_mem {l : List String} (h : l ≠ []) : listMin l ∈ l := by
  cases l with
  | nil => exact absurd rfl h
  | cons x xs => exact foldlMin_mem xs x

theorem listMin_not_lt {l : List String} {y : String} (hy : y ∈ l) :
    strLt y (listMin l) = false := by
  cases l with
  | nil => cases hy
  | cons x xs => exact foldlMin_not_lt xs x y hy

theorem listMin_congr {l l' : List String} (h : l ≠ []) (h' : l' ≠ [])
    (hmem : ∀ x, x ∈ l ↔ x ∈ l') : listMin l = listMin l' :=
  strLt_antisymm (listMin_not_lt ((hmem _).mp (listMin_mem h)))
    (listMin_not_lt ((hmem _).mpr (listMin_mem h')))

theorem canonicalRotation_eq_rotate (p : List String) :
    canonicalRotation p = p.rotate (p.indexOf (listMin p)) :=
  (List.rotate_eq_drop_append_take List.indexOf_le_length).symm

theorem canonicalRotation_perm (p : List String) :
    List.Perm (canonicalRotation p) p := by
  rw [canonicalRotation_eq_rotate]
  exact List.rotate_perm p _

theorem canonicalRotation_isRotated (p : List String) :
    List.IsRotated p (canonicalRotation p) :=
  ⟨p.indexOf (listMin p), (canonicalRotation_eq_rotate p).symm⟩

theorem head?_rotate_of_lt {p : List String} {k : Nat} (hk : k < p.length) :
    (p.rotate k).head? = p[k]? := by
  rw [List.rotate_eq_drop_append_take (Nat.le_of_lt hk)]
  have hne : p.drop k ≠ [] := by
    intro hcon
    rw [List.drop_eq_nil_iff] at hcon
    omega
  obtain ⟨a, t, ht⟩ := List.exists_cons_of_ne_nil hne
  have ha : p[k]? = some a := by
    have := List.getElem?_drop p k 0
    rw [ht] at this
    simpa using this.symm
  rw [ht, List.cons_append, ha]
  rfl

theorem canonicalRotation_head {p : List String} (h : p ≠ []) :
    (canonicalRotation p).head? = some (listMin p) := by
  have hmem : listMin p ∈ p := listMin_mem h
  have hlt : p.indexOf (listMin p) < p.length := List.indexOf_lt_length.mpr hmem
  rw [canonicalRotation_eq_rotate, head?_rotate_of_lt hlt,
    List.getElem?_eq_getElem hlt, List.getElem_indexOf hlt]

/-- A duplicate-free list has at most one rotation whose head is its
minimum: canonical representatives are unique. -/
theorem canonical_head_unique {p q : List String} (hnd : p.Nodup)
    (hr : List.IsRotated p q) (hp : p.head? = some (listMin p))
    (hq : q.head? = some (listMin q)) : p = q := by
  obtain ⟨n, rfl⟩ := hr
  rcases List.eq_nil_or_concat p with rfl | ⟨_, _, _⟩
  · simp
  · have hlen : 0 < p.length := by
      rename_i h'
      obtain ⟨l, a, rfl⟩ := h'
      simp
    have hmin : listMin (p.rotate n) = listMin p := by
      apply listMin_congr
      · intro hcon
        rw [← List.length_eq_zero] at hcon
        rw [List.length_rotate] at hcon
        omega
      · intro hcon
        rw [← List.length_eq_zero] at hcon
        omega
      · intro x
        exact (List.rotate_perm p n).mem_iff
    rw [hmin] at hq
    rw [← List.rotate_mod] at hq ⊢
    have hk : n % p.length < p.length := Nat.mod_lt _ hlen
    rw [head?_rotate_of_lt hk] at hq
    have h0 : p[0]? = some (listMin p) := by
      rw [← hp, List.head?_eq_getElem?]
    rw [List.getElem?_eq_getElem hk] at hq
    rw [List.getElem?_eq_getElem hlen] at h0
    have : p[n % p.length] = p[0] := by
      rw [Option.some_inj] at hq h0
      rw [hq, h0]
    have hzero : n % p.length = 0 := by
      have := List.Nodup.getElem_inj_iff hnd |>.mp this
      exact this
    rw [hzero, List.rotate_zero]

/-! ## Cycles are preserved by rotation -/

theorem chainOk_iff_chain' (g : Graph) (l : List String) :
    ChainOk g l ↔ List.Chain' (isEdge g) l := by
  induction l with
  | nil => simp [ChainOk, chainB, List.Chain']
  | cons a t ih =>
    cases t with
    | nil => simp [ChainOk, chainB]
    | cons b rest =>
      rw [List.chain'_cons, ← ih]
      simp [ChainOk, chainB]

theorem IsCycleOf.rotate {g : Graph} {c : List String} (h : IsCycleOf g c) (n : Nat) :
    IsCycleOf g (c.rotate n) := by
  obtain ⟨hne, hnd, hch⟩ := h
  have hperm := List.rotate_perm c n
  refine ⟨?_, hperm.nodup_iff.mpr hnd, ?_⟩
  · intro hcon
    apply hne
    rw [← List.length_eq_zero] at hcon ⊢
    rw [List.length_rotate] at hcon
    exact hcon
  · obtain ⟨x, xs, rfl⟩ := List.exists_cons_of_ne_nil hne
    have hne' : (x :: xs).rotate n ≠ [] := by
      intro hcon
      rw [← List.length_eq_zero, List.length_rotate] at hcon
      simp at hcon
    obtain ⟨y, ys, hy⟩ := List.exists_cons_of_ne_nil hne'
    rw [chainOk_iff_chain'] at hch ⊢
    have hcyc : Cycle.Chain (isEdge g) ↑(x :: xs) := by
      rw [Cycle.chain_coe_cons]
      have : closeLoop (x :: xs) = x :: (xs ++ [x]) := by simp [closeLoop]
      rw [this] at hch
      exact hch
    have heq : (↑((x :: xs).rotate n) : Cycle String) = ↑(x :: xs) :=
      Cycle.coe_eq_coe.mpr (List.IsRotated.symm ⟨n, rfl⟩)
    rw [hy] at heq
    rw [← heq] at hcyc
    rw [Cycle.chain_coe_cons] at hcyc
    rw [hy]
    have : closeLoop (y :: ys) = y :: (ys ++ [y]) := by simp [closeLoop]
    rw [this]
    exact hcyc

theorem IsCycleOf.canonicalRotation {g : Graph} {c : List String} (h : IsCycleOf g c) :
    IsCycleOf g (Causal.canonicalRotation c) := by
  rw [canonicalRotation_eq_rotate]
  exact h.rotate _

/-! ## State lemmas for addCycle and search -/

theorem addCycle_mem {path x : List String} {found : List (List String)} :
    x ∈ addCycle path found ↔ x ∈ found ∨ x = canonicalRotation path := by
  simp only [addCycle]
  split_ifs with h
  · constructor
    · exact Or.inl
    · rintro (hx | rfl)
      · exact hx
      · exact h
  · simp [List.mem_append]

theorem addCycle_nodup {path : List String} {found : List (List String)}
    (h : found.Nodup) : (addCycle path found).Nodup := by
  simp only [addCycle]
  split_ifs with hc
  · exact h
  · simp [List.nodup_append, h, hc]

theorem addCycle_pres {P : List String → Prop} {path : List String}
    {found : List (List String)} (hf : ∀ l ∈ found, P l)
    (hc : P (canonicalRotation path)) : ∀ l ∈ addCycle path found, P l := by
  intro l hl
  rcases addCycle_mem.mp hl with hl' | rfl
  · exact hf l hl'
  · exact hc

theorem addCycle_found_subset {path : List String} {found : List (List String)} :
    found ⊆ addCycle path found := fun _ hx => addCycle_mem.mpr (Or.inl hx)

theorem search_visited_mono (g : Graph) :
    ∀ (fuel : Nat) (st : SearchState) (path : List String) (v : String),
      st.visited ⊆ (search g fuel st path v).visited := by
  intro fuel
  induction fuel with
  | zero => intro st path v; exact fun x hx => hx
  | succ fuel ih =>
    have hstep : ∀ (path : List String) (st : SearchState) (nb : String),
        st.visited ⊆ (searchStep g fuel path st nb).visited := by
      intro path st nb
      unfold searchStep
      by_cases hv : nb ∈ st.visited <;> by_cases hp : nb ∈ path <;>
        simp only [hv, hp, if_pos, if_neg, if_true, if_false] <;>
        first
          | exact fun x hx => hx
          | exact ih st path nb
    have hfold : ∀ (nbrs path : List String) (st : SearchState),
        st.visited ⊆ ((nbrs.foldl (searchStep g fuel path) st)).visited := by
      intro nbrs
      induction nbrs with
      | nil => intro path st; exact fun x hx => hx
      | cons nb rest ihn =>
        intro path st
        simp only [List.foldl_cons]
        exact (hstep path st nb).trans (ihn path _)
    intro st path v
    rw [search_succ]
    intro x hx
    exact hfold _ _ _ (List.mem_cons_of_mem _ hx)

theorem searchStep_visited_mono (g : Graph) (fuel : Nat) (path : List String)
    (st : SearchState) (nb : String) :
    st.visited ⊆ (searchStep g fuel path st nb).visited := by
  unfold searchStep
  by_cases hv : nb ∈ st.visited <;> by_cases hp : nb ∈ path <;>
    simp only [hv, hp, if_pos, if_neg, if_true, if_false] <;>
    first
      | exact fun x hx => hx
      | exact search_visited_mono g fuel st path nb

theorem search_found_mono (g : Graph) :
    ∀ (fuel : Nat) (st : SearchState) (path : List String) (v : String),
      st.found ⊆ (search g fuel st path v).found := by
  intro fuel
  induction fuel with
  | zero => intro st path v; exact fun x hx => hx
  | succ fuel ih =>
    have hstep : ∀ (path : List String) (st : SearchState) (nb : String),
        st.found ⊆ (searchStep g fuel path st nb).found := by
      intro path st nb
      unfold searchStep
      by_cases hv : nb ∈ st.visited <;> by_cases hp : nb ∈ path <;>
        simp only [hv, hp, if_pos, if_neg, if_true, if_false] <;>
        first
          | exact fun x hx => hx
          | exact addCycle_found_subset
          | exact (ih st path nb).trans addCycle_found_subset
          | exact ih st path nb
    have hfold : ∀ (nbrs path : List String) (st : SearchState),
        st.found ⊆ ((nbrs.foldl (searchStep g fuel path) st)).found := by
      intro nbrs
      induction nbrs with
      | nil => intro path st; exact fun x hx => hx
      | cons nb rest ihn =>
        intro path st
        simp only [List.foldl_cons]
        exact (hstep path st nb).trans (ihn path _)
    intro st path v
    rw [search_succ]
    exact hfold (lookupEdges g v) (path ++ [v]) ⟨v :: st.visited, st.found⟩

theorem searchStep_found_mono (g : Graph) (fuel : Nat) (path : List String)
    (st : SearchState) (nb : String) :
    st.found ⊆ (searchStep g fuel path st nb).found := by
  unfold searchStep
  by_cases hv : nb ∈ st.visited <;> by_cases hp : nb ∈ path <;>
    simp only [hv, hp, if_pos, if_neg, if_true, if_false] <;>
    first
      | exact fun x hx => hx
      | exact addCycle_found_subset
      | exact (search_found_mono g fuel st path nb).trans addCycle_found_subset
      | exact search_found_mono g fuel st path nb

/-! ## The found list depends on the initial found list only by union -/

theorem search_found_rel (g : Graph) :
    ∀ (fuel : Nat) (path : List String) (v : String) (st₁ st₂ : SearchState)
      (F₀ : List (List String)),
      st₁.visited = st₂.visited →
      (∀ x, x ∈ st₁.found ↔ x ∈ F₀ ∨ x ∈ st₂.found) →
      (search g fuel st₁ path v).visited = (search g fuel st₂ path v).visited
      ∧ ∀ x, x ∈ (search g fuel st₁ path v).found ↔
          x ∈ F₀ ∨ x ∈ (search g fuel st₂ path v).found := by
  intro fuel
  induction fuel with
  | zero => intro path v st₁ st₂ F₀ hv hf; exact ⟨hv, hf⟩
  | succ fuel ih =>
    have hstep : ∀ (path : List String) (st₁ st₂ : SearchState) (nb : String)
        (F₀ : List (List String)),
        st₁.visited = st₂.visited →
        (∀ x, x ∈ st₁.found ↔ x ∈ F₀ ∨ x ∈ st₂.found) →
        (searchStep g fuel path st₁ nb).visited = (searchStep g fuel path st₂ nb).visited
        ∧ ∀ x, x ∈ (searchStep g fuel path st₁ nb).found ↔
            x ∈ F₀ ∨ x ∈ (searchStep g fuel path st₂ nb).found := by
      intro path st₁ st₂ nb F₀ hv hf
      simp only [searchStep, hv]
      by_cases hmem : nb ∈ st₂.visited
      · simp only [hmem, if_true]
        by_cases hp : nb ∈ path
        · simp only [hp, if_true]
          refine ⟨hv, ?_⟩
          intro x
          rw [addCycle_mem, addCycle_mem, hf x]
          tauto
        · simp only [hp, if_false]
          exact ⟨hv, hf⟩
      · simp only [hmem, if_false]
        obtain ⟨hv', hf'⟩ := ih path nb st₁ st₂ F₀ hv hf
        by_cases hp : nb ∈ path
        · simp only [hp, if_true]
          refine ⟨hv', ?_⟩
          intro x
          rw [addCycle_mem, addCycle_mem, hf' x]
          tauto
        · simp only [hp, if_false]
          exact ⟨hv', hf'⟩
    have hfold : ∀ (nbrs path : List String) (st₁ st₂ : SearchState)
        (F₀ : List (List String)),
        st₁.visited = st₂.visited →
        (∀ x, x ∈ st₁.found ↔ x ∈ F₀ ∨ x ∈ st₂.found) →
        (nbrs.foldl (searchStep g fuel path) st₁).visited
          = (nbrs.foldl (searchStep g fuel path) st₂).visited
        ∧ ∀ x, x ∈ (nbrs.foldl (searchStep g fuel path) st₁).found ↔
            x ∈ F₀ ∨ x ∈ (nbrs.foldl (searchStep g fuel path) st₂).found := by
      intro nbrs
      induction nbrs with
      | nil => intro path st₁ st₂ F₀ hv hf; exact ⟨hv, hf⟩
      | cons nb rest ihn =>
        intro path st₁ st₂ F₀ hv hf
        simp only [List.foldl_cons]
        obtain ⟨hv', hf'⟩ := hstep path st₁ st₂ nb F₀ hv hf
        exact ihn path _ _ F₀ hv' hf'
    intro path v st₁ st₂ F₀ hv hf
    rw [search_succ, search_succ]
    exact hfold (lookupEdges g v) (path ++ [v]) ⟨v :: st₁.visited, st₁.found⟩
      ⟨v :: st₂.visited, st₂.found⟩ F₀ (by simp [hv]) hf

theorem search_visited_indep (g : Graph) (fuel : Nat) (path : List String) (v : String)
    (vis : List String) (f : List (List String)) :
    (search g fuel ⟨vis, f⟩ path v).visited = (search g fuel ⟨vis, []⟩ path v).visited :=
  (search_found_rel g fuel path v ⟨vis, f⟩ ⟨vis, []⟩ f rfl (by simp)).1

theorem search_found_mem (g : Graph) (fuel : Nat) (path : List String) (v : String)
    (vis : List String) (f : List (List String)) (x : List String) :
    x ∈ (search g fuel ⟨vis, f⟩ path v).found ↔
      x ∈ f ∨ x ∈ (search g fuel ⟨vis, []⟩ path v).found :=
  (search_found_rel g fuel path v ⟨vis, f⟩ ⟨vis, []⟩ f rfl (by simp)).2 x

/-! ## Soundness: everything recorded by addCycle is a canonical cycle -/

theorem canonicalRotation_ne_nil {p : List String} (h : p ≠ []) :
    canonicalRotation p ≠ [] := by
  intro hcon
  apply h
  have := (canonicalRotation_perm p).length_eq
  rw [hcon] at this
  rw [← List.length_eq_zero]
  simp at this
  omega

theorem canonicalRotation_isCanonical {p : List String} (h : p ≠ []) :
    IsCanonical (canonicalRotation p) := by
  unfold IsCanonical
  rw [canonicalRotation_head h]
  have : listMin p = listMin (canonicalRotation p) :=
    listMin_congr h (canonicalRotation_ne_nil h)
      (fun x => (canonicalRotation_perm p).mem_iff.symm)
  rw [this]

theorem isCycleOf_mk {g : Graph} {s : List String} (hne : s ≠ []) (hnd : s.Nodup)
    (hch : List.Chain' (isEdge g) s) (hcl : isEdge g (s.getLast hne) (s.head hne)) :
    IsCycleOf g s := by
  refine ⟨hne, hnd, ?_⟩
  rw [chainOk_iff_chain']
  obtain ⟨a, t, rfl⟩ := List.exists_cons_of_ne_nil hne
  have hclose : closeLoop (a :: t) = (a :: t) ++ [a] := by simp [closeLoop]
  rw [hclose, List.chain'_append]
  refine ⟨hch, List.chain'_singleton _, ?_⟩
  intro x hx y hy
  simp only [List.head?_cons, Option.mem_def, Option.some_inj] at hy
  rw [List.getLast?_eq_getLast_of_ne_nil hne, Option.mem_def, Option.some_inj] at hx
  subst hx
  subst hy
  exact hcl

theorem drop_getLast? {p : List String} {i : Nat} (hi : i < p.length) :
    (p.drop i).getLast? = p.getLast? := by
  have hne : p.drop i ≠ [] := by
    rw [Ne, List.drop_eq_nil_iff]
    omega
  conv_rhs => rw [← List.take_append_drop i p]
  rw [List.getLast?_append_of_ne_nil _ hne]

theorem drop_head? {p : List String} {i : Nat} (hi : i < p.length) :
    (p.drop i).head? = some p[i] := by
  have := List.getElem?_drop p i 0
  rw [Nat.add_zero] at this
  rw [List.head?_eq_getElem?, this, List.getElem?_eq_getElem hi]

/-- The sub-path from an occurrence of `nb` in `path` to the end of the
path, together with the closing edge back to `nb`, is a simple cycle:
what `search` hands to `addCycle`. -/
theorem suffix_cycle {g : Graph} {path : List String} {nb : String}
    (hnd : path.Nodup) (hch : List.Chain' (isEdge g) path) (hnb : nb ∈ path)
    (hedge : isEdge g (path.getLast (List.ne_nil_of_mem hnb)) nb) :
    IsCycleOf g (path.drop (path.indexOf nb)) := by
  have hi : path.indexOf nb < path.length := List.indexOf_lt_length.mpr hnb
  have hne : path.drop (path.indexOf nb) ≠ [] := by
    rw [Ne, List.drop_eq_nil_iff]
    omega
  have hpne : path ≠ [] := List.ne_nil_of_mem hnb
  apply isCycleOf_mk hne (hnd.sublist (List.drop_sublist _ _)) (hch.drop _)
  have hlast : (path.drop (path.indexOf nb)).getLast hne
      = path.getLast hpne := by
    have h1 := drop_getLast? hi
    rw [List.getLast?_eq_getLast_of_ne_nil hne, List.getLast?_eq_getLast_of_ne_nil hpne]
      at h1
    exact Option.some_inj.mp h1
  have hhead : (path.drop (path.indexOf nb)).head hne = nb := by
    have h1 := drop_head? hi
    rw [List.head?_eq_head hne] at h1
    have := Option.some_inj.mp h1
    rw [this, List.getElem_indexOf hi]
  rw [hlast, hhead]
  exact hedge

theorem search_found_sound (g : Graph) :
    ∀ (fuel : Nat) (st : SearchState) (path : List String) (v : String),
      path.Nodup → (∀ x ∈ path, x ∈ st.visited) → v ∉ st.visited →
      List.Chain' (isEdge g) (path ++ [v]) →
      (∀ l ∈ st.found, IsCycleOf g l ∧ IsCanonical l) →
      ∀ l ∈ (search g fuel st path v).found, IsCycleOf g l ∧ IsCanonical l := by
  intro fuel
  induction fuel with
  | zero => intro st path v _ _ _ _ hsound; exact hsound
  | succ fuel ih =>
    have hpayload : ∀ (path' : List String) (nb : String) (hne : path' ≠ []),
        path'.Nodup → List.Chain' (isEdge g) path' →
        isEdge g (path'.getLast hne) nb → nb ∈ path' →
        IsCycleOf g (canonicalRotation (path'.drop (path'.indexOf nb)))
          ∧ IsCanonical (canonicalRotation (path'.drop (path'.indexOf nb))) := by
      intro path' nb hne hnd hch hedge hp
      have hcyc := suffix_cycle hnd hch hp hedge
      have hdne : path'.drop (path'.indexOf nb) ≠ [] := hcyc.1
      exact ⟨hcyc.canonicalRotation, canonicalRotation_isCanonical hdne⟩
    have hfold : ∀ (nbrs path' : List String) (st : SearchState) (hne : path' ≠ []),
        path'.Nodup → (∀ x ∈ path', x ∈ st.visited) →
        List.Chain' (isEdge g) path' →
        (∀ nb ∈ nbrs, isEdge g (path'.getLast hne) nb) →
        (∀ l ∈ st.found, IsCycleOf g l ∧ IsCanonical l) →
        ∀ l ∈ (nbrs.foldl (searchStep g fuel path') st).found,
          IsCycleOf g l ∧ IsCanonical l := by
      intro nbrs
      induction nbrs with
      | nil => intro path' st hne _ _ _ _ hsound; exact hsound
      | cons nb rest ihn =>
        intro path' st hne hnd hsub hch hedges hsound
        simp only [List.foldl_cons]
        refine ihn path' _ hne hnd ?_ hch
          (fun x hx => hedges x (List.mem_cons_of_mem _ hx)) ?_
        · intro x hx
          exact searchStep_visited_mono g fuel path' st nb (hsub x hx)
        · -- soundness is preserved by one searchStep
          simp only [searchStep]
          by_cases hv : nb ∈ st.visited
          · simp only [hv, if_true]
            by_cases hp : nb ∈ path'
            · simp only [hp, if_true]
              exact addCycle_pres hsound
                (hpayload path' nb hne hnd hch (hedges nb (List.mem_cons_self _ _)) hp)
            · simp only [hp, if_false]
              exact hsound
          · simp only [hv, if_false]
            have hch' : List.Chain' (isEdge g) (path' ++ [nb]) := by
              rw [List.chain'_append]
              refine ⟨hch, List.chain'_singleton _, ?_⟩
              intro x hx y hy
              simp only [List.head?_cons, Option.mem_def, Option.some_inj] at hy
              rw [List.getLast?_eq_getLast_of_ne_nil hne, Option.mem_def,
                Option.some_inj] at hx
              subst hx
              subst hy
              exact hedges nb (List.mem_cons_self _ _)
            have hsound' := ih st path' nb hnd hsub hv hch' hsound
            by_cases hp : nb ∈ path'
            · simp only [hp, if_true]
              exact addCycle_pres hsound'
                (hpayload path' nb hne hnd hch (hedges nb (List.mem_cons_self _ _)) hp)
            · simp only [hp, if_false]
              exact hsound'
    intro st path v hnd hsub hvnv hch hsound
    rw [search_succ]
    have hne' : path ++ [v] ≠ [] := by simp
    have hvnp : v ∉ path := fun hv => hvnv (hsub v hv)
    refine hfold (lookupEdges g v) (path ++ [v]) ⟨v :: st.visited, st.found⟩ hne'
      ?_ ?_ hch ?_ hsound
    · simp [List.nodup_append, hnd, hvnp]
    · intro x hx
      rcases List.mem_append.mp hx with hx' | hx'
      · exact List.mem_cons_of_mem _ (hsub x hx')
      · simp only [List.mem_singleton] at hx'
        subst hx'
        exact List.mem_cons_self _ _
    · intro nb hnb
      have : (path ++ [v]).getLast hne' = v := by
        rw [List.getLast_append]
        simp
      rw [this]
      exact hnb

theorem search_found_nodup (g : Graph) :
    ∀ (fuel : Nat) (st : SearchState) (path : List String) (v : String),
      st.found.Nodup → (search g fuel st path v).found.Nodup := by
  intro fuel
  induction fuel with
  | zero => intro st path v h; exact h
  | succ fuel ih =>
    have hstep : ∀ (path : List String) (st : SearchState) (nb : String),
        st.found.Nodup → (searchStep g fuel path st nb).found.Nodup := by
      intro path st nb h
      unfold searchStep
      by_cases hv : nb ∈ st.visited <;> by_cases hp : nb ∈ path <;>
        simp only [hv, hp, if_true, if_false] <;>
        first
          | exact h
          | exact addCycle_nodup h
          | exact addCycle_nodup (ih st path nb h)
          | exact ih st path nb h
    have hfold : ∀ (nbrs path : List String) (st : SearchState),
        st.found.Nodup → ((nbrs.foldl (searchStep g fuel path) st)).found.Nodup := by
      intro nbrs
      induction nbrs with
      | nil => intro path st h; exact h
      | cons nb rest ihn =>
        intro path st h
        simp only [List.foldl_cons]
        exact ihn path _ (hstep path st nb h)
    intro st path v h
    rw [search_succ]
    exact hfold (lookupEdges g v) (path ++ [v]) ⟨v :: st.visited, st.found⟩ h

/-! ## findCycles: properties of the multi-root driver -/

/-- The cycles a single root's search discovers, starting from a fresh
visited set, an empty path and an empty found list. -/
def rootFound (g : Graph) (r : String) : List (List String) :=
  (search g (fuelFor g) ⟨[], []⟩ [] r).found

theorem findCycles_foldl (g : Graph) (roots : List String) :
    findCycles g roots =
      roots.foldl (fun found v => (search g (fuelFor g) ⟨[], found⟩ [] v).found) [] := rfl

theorem findCycles_fold_nodup (g : Graph) :
    ∀ (roots : List String) (found : List (List String)), found.Nodup →
      (roots.foldl (fun found v => (search g (fuelFor g) ⟨[], found⟩ [] v).found)
        found).Nodup := by
  intro roots
  induction roots with
  | nil => intro found h; exact h
  | cons r rest ih =>
    intro found h
    simp only [List.foldl_cons]
    exact ih _ (search_found_nodup g _ ⟨[], found⟩ [] r h)

theorem findCycles_nodup (g : Graph) (roots : List String) :
    (findCycles g roots).Nodup :=
  findCycles_fold_nodup g roots [] List.nodup_nil

theorem findCycles_fold_sound (g : Graph) :
    ∀ (roots : List String) (found : List (List String)),
      (∀ l ∈ found, IsCycleOf g l ∧ IsCanonical l) →
      ∀ l ∈ roots.foldl (fun found v => (search g (fuelFor g) ⟨[], found⟩ [] v).found)
        found, IsCycleOf g l ∧ IsCanonical l := by
  intro roots
  induction roots with
  | nil => intro found h; exact h
  | cons r rest ih =>
    intro found h
    simp only [List.foldl_cons]
    refine ih _ ?_
    refine search_found_sound g _ ⟨[], found⟩ [] r List.nodup_nil ?_ ?_ ?_ h
    · intro x hx
      cases hx
    · intro hcon
      cases hcon
    · simp

theorem findCycles_sound (g : Graph) (roots : List String) :
    ∀ l ∈ findCycles g roots, IsCycleOf g l ∧ IsCanonical l :=
  findCycles_fold_sound g roots [] (by intro l hl; cases hl)

theorem findCycles_fold_mem (g : Graph) :
    ∀ (roots : List String) (found : List (List String)) (x : List String),
      x ∈ roots.foldl (fun found v => (search g (fuelFor g) ⟨[], found⟩ [] v).found)
        found ↔ x ∈ found ∨ ∃ r ∈ roots, x ∈ rootFound g r := by
  intro roots
  induction roots with
  | nil => intro found x; simp
  | cons r rest ih =>
    intro found x
    simp only [List.foldl_cons]
    rw [ih]
    rw [search_found_mem g (fuelFor g) [] r [] found x]
    unfold rootFound
    constructor
    · rintro ((hx | hx) | ⟨r', hr', hx⟩)
      · exact Or.inl hx
      · exact Or.inr ⟨r, List.mem_cons_self _ _, hx⟩
      · exact Or.inr ⟨r', List.mem_cons_of_mem _ hr', hx⟩
    · rintro (hx | ⟨r', hr', hx⟩)
      · exact Or.inl (Or.inl hx)
      · rcases List.mem_cons.mp hr' with rfl | hr''
        · exact Or.inl (Or.inr hx)
        · exact Or.inr ⟨r', hr'', hx⟩

theorem findCycles_mem (g : Graph) (roots : List String) (x : List String) :
    x ∈ findCycles g roots ↔ ∃ r ∈ roots, x ∈ rootFound g r := by
  rw [findCycles_foldl, findCycles_fold_mem]
  simp

theorem findCycles_perm_of_root_perm {g : Graph} {roots₁ roots₂ : List String}
    (h : List.Perm roots₁ roots₂) :
    List.Perm (findCycles g roots₁) (findCycles g roots₂) := by
  rw [List.perm_ext_iff_of_nodup (findCycles_nodup g roots₁) (findCycles_nodup g roots₂)]
  intro x
  rw [findCycles_mem, findCycles_mem]
  constructor
  · rintro ⟨r, hr, hx⟩
    exact ⟨r, h.mem_iff.mp hr, hx⟩
  · rintro ⟨r, hr, hx⟩
    exact ⟨r, h.mem_iff.mpr hr, hx⟩

/-! ## Loops-level lemmas -/

theorem closeLoop_ne_nil {c : List String} (h : c ≠ []) : closeLoop c ≠ [] := by
  obtain ⟨a, t, rfl⟩ := List.exists_cons_of_ne_nil h
  simp [closeLoop]

theorem closeLoop_dropLast {c : List String} (h : c ≠ []) : (closeLoop c).dropLast = c := by
  obtain ⟨a, t, rfl⟩ := List.exists_cons_of_ne_nil h
  have : closeLoop (a :: t) = (a :: t) ++ [a] := by simp [closeLoop]
  rw [this]
  exact List.dropLast_concat ..

theorem closeLoop_inj {c₁ c₂ : List String} (h₁ : c₁ ≠ []) (h₂ : c₂ ≠ [])
    (h : closeLoop c₁ = closeLoop c₂) : c₁ = c₂ := by
  rw [← closeLoop_dropLast h₁, ← closeLoop_dropLast h₂, h]

theorem LoopsWith_def (m : Map) (roots : List String) :
    m.LoopsWith roots = sortLoops ((findCycles m.outgoing roots).map closeLoop) := rfl

theorem LoopsWith_perm (m : Map) (roots : List String) :
    List.Perm (m.LoopsWith roots) ((findCycles m.outgoing roots).map closeLoop) :=
  sortLoops_perm _

theorem LoopsWith_mem {m : Map} {roots : List String} {l : List String} :
    l ∈ m.LoopsWith roots ↔ ∃ c ∈ findCycles m.outgoing roots, closeLoop c = l := by
  rw [(LoopsWith_perm m roots).mem_iff, List.mem_map]

/-- Every entry of the result is the closed form of a canonical simple
cycle of the adjacency map. -/
theorem LoopsWith_sound (m : Map) (roots : List String) :
    ∀ l ∈ m.LoopsWith roots, ∃ c, IsCycleOf m.outgoing c ∧ IsCanonical c
      ∧ l = closeLoop c := by
  intro l hl
  obtain ⟨c, hc, hcl⟩ := LoopsWith_mem.mp hl
  obtain ⟨hcyc, hcanon⟩ := findCycles_sound m.outgoing roots c hc
  exact ⟨c, hcyc, hcanon, hcl.symm⟩

theorem LoopsWith_nodup (m : Map) (roots : List String) : (m.LoopsWith roots).Nodup := by
  rw [(LoopsWith_perm m roots).nodup_iff]
  refine List.Nodup.map_on ?_ (findCycles_nodup m.outgoing roots)
  intro x hx y hy hxy
  exact closeLoop_inj (findCycles_sound m.outgoing roots x hx).1.1
    (findCycles_sound m.outgoing roots y hy).1.1 hxy

/-- The final output is invariant under permuting the root iteration
order: the Go `for v := range outgoing` loop may visit the keys in any
order without changing `Loops()`. -/
theorem LoopsWith_root_perm (m : Map) {roots₁ roots₂ : List String}
    (h : List.Perm roots₁ roots₂) : m.LoopsWith roots₁ = m.LoopsWith roots₂ :=
  sortLoops_eq_of_perm ((findCycles_perm_of_root_perm h).map closeLoop)

theorem LoopsWith_sorted (m : Map) (roots : List String) :
    (m.LoopsWith roots).Pairwise loopLe := sortLoops_sorted _

/-! ## Variables, edge endpoints, and chain edges -/

/-- The set of normalized vertices that occur as an endpoint (source or
destination) of some edge of the edge list.  This definition follows the
specification's words; it is compared against `Map.Variables`. -/
def endpointSet (m : Map) : Finset String :=
  (m.edgeList.map Prod.fst).toFinset ∪ (m.edgeList.map Prod.snd).toFinset

theorem mem_endpointSet {m : Map} {x : String} :
    x ∈ endpointSet m ↔ ∃ e ∈ m.edgeList, x = e.1 ∨ x = e.2 := by
  unfold endpointSet
  simp only [Finset.mem_union, List.mem_toFinset, List.mem_map]
  constructor
  · rintro (⟨e, he, rfl⟩ | ⟨e, he, rfl⟩)
    · exact ⟨e, he, Or.inl rfl⟩
    · exact ⟨e, he, Or.inr rfl⟩
  · rintro ⟨e, he, rfl | rfl⟩
    · exact Or.inl ⟨e, he, rfl⟩
    · exact Or.inr ⟨e, he, rfl⟩

theorem mem_foldl_insert_entry (x : String) :
    ∀ (rs : List RelationshipEntry) (s : Finset String),
      x ∈ rs.foldl (fun s r => insert (normalizeVar r.Variable) s) s ↔
        x ∈ s ∨ ∃ r ∈ rs, x = normalizeVar r.Variable := by
  intro rs
  induction rs with
  | nil => intro s; simp
  | cons r rest ih =>
    intro s
    simp only [List.foldl_cons]
    rw [ih]
    simp only [Finset.mem_insert, List.mem_cons]
    constructor
    · rintro ((rfl | hs) | ⟨r', hr', rfl⟩)
      · exact Or.inr ⟨r, Or.inl rfl, rfl⟩
      · exact Or.inl hs
      · exact Or.inr ⟨r', Or.inr hr', rfl⟩
    · rintro (hs | ⟨r', rfl | hr', rfl⟩)
      · exact Or.inl (Or.inr hs)
      · exact Or.inl (Or.inl rfl)
      · exact Or.inr ⟨r', hr', rfl⟩

theorem mem_Variables {m : Map} {x : String} :
    x ∈ m.Variables ↔ ∃ c ∈ m.CausalChains,
      x = normalizeVar c.InitialVariable
        ∨ ∃ r ∈ c.Relationships, x = normalizeVar r.Variable := by
  unfold Map.Variables
  suffices h : ∀ (cs : List Chain) (s : Finset String),
      x ∈ cs.foldl (fun vars c =>
          c.Relationships.foldl (fun vars next => insert (normalizeVar next.Variable) vars)
            (insert (normalizeVar c.InitialVariable) vars)) s ↔
        x ∈ s ∨ ∃ c ∈ cs, x = normalizeVar c.InitialVariable
          ∨ ∃ r ∈ c.Relationships, x = normalizeVar r.Variable by
    rw [h]
    simp
  intro cs
  induction cs with
  | nil => intro s; simp
  | cons c rest ih =>
    intro s
    simp only [List.foldl_cons]
    rw [ih, mem_foldl_insert_entry]
    simp only [Finset.mem_insert, List.mem_cons]
    constructor
    · rintro (((rfl | hs) | ⟨r, hr, rfl⟩) | ⟨c', hc', hx⟩)
      · exact Or.inr ⟨c, Or.inl rfl, Or.inl rfl⟩
      · exact Or.inl hs
      · exact Or.inr ⟨c, Or.inl rfl, Or.inr ⟨r, hr, rfl⟩⟩
      · exact Or.inr ⟨c', Or.inr hc', hx⟩
    · rintro (hs | ⟨c', rfl | hc', hx⟩)
      · exact Or.inl (Or.inl (Or.inr hs))
      · rcases hx with rfl | ⟨r, hr, rfl⟩
        · exact Or.inl (Or.inl (Or.inl rfl))
        · exact Or.inl (Or.inr ⟨r, hr, rfl⟩)
      · exact Or.inr ⟨c', hc', hx⟩

theorem mem_edgeList {m : Map} {e : String × String} :
    e ∈ m.edgeList ↔ ∃ c ∈ m.CausalChains,
      e ∈ chainEdges c.InitialVariable c.Relationships := by
  unfold Map.edgeList
  simp only [List.mem_flatten, List.mem_map]
  constructor
  · rintro ⟨l, ⟨c, hc, rfl⟩, he⟩
    exact ⟨c, hc, he⟩
  · rintro ⟨c, hc, he⟩
    exact ⟨_, ⟨c, hc, rfl⟩, he⟩

theorem endpoint_chainEdges {x : String} :
    ∀ (rs : List RelationshipEntry) (initial : String), rs ≠ [] →
      ((x = normalizeVar initial ∨ ∃ r ∈ rs, x = normalizeVar r.Variable) ↔
        ∃ e ∈ chainEdges initial rs, x = e.1 ∨ x = e.2) := by
  intro rs
  induction rs with
  | nil => intro initial h; exact absurd rfl h
  | cons r rest ih =>
    intro initial _
    cases rest with
    | nil => simp [chainEdges]
    | cons r₂ rest₂ =>
      have hih := ih r.Variable (by simp)
      simp only [chainEdges, List.mem_cons] at hih ⊢
      constructor
      · rintro (rfl | ⟨r', rfl | hr', rfl⟩)
        · exact ⟨(normalizeVar initial, normalizeVar r.Variable), Or.inl rfl, Or.inl rfl⟩
        · exact ⟨(normalizeVar initial, normalizeVar r'.Variable), Or.inl rfl, Or.inr rfl⟩
        · obtain ⟨e, he, hx⟩ := hih.mp (Or.inr ⟨r', hr', rfl⟩)
          exact ⟨e, Or.inr he, hx⟩
      · rintro ⟨e, rfl | he, hx⟩
        · rcases hx with rfl | rfl
          · exact Or.inl rfl
          · exact Or.inr ⟨r, Or.inl rfl, rfl⟩
        · rcases hih.mpr ⟨e, he, hx⟩ with hx' | ⟨r', hr', rfl⟩
          · exact Or.inr ⟨r, Or.inl rfl, hx'⟩
          · exact Or.inr ⟨r', Or.inr hr', rfl⟩

theorem chainEdges_length (initial : String) (rs : List RelationshipEntry) :
    (chainEdges initial rs).length = rs.length := by
  induction rs generalizing initial with
  | nil => rfl
  | cons r rest ih => simp [chainEdges, ih]

theorem chainEdges_get :
    ∀ (rs : List RelationshipEntry) (initial : String) (i : Nat) (h : i < rs.length)
      (h1 : i - 1 < rs.length) (h2 : i < (chainEdges initial rs).length),
      (chainEdges initial rs).get ⟨i, h2⟩ =
        (normalizeVar (if i = 0 then initial else (rs.get ⟨i - 1, h1⟩).Variable),
         normalizeVar (rs.get ⟨i, h⟩).Variable) := by
  intro rs
  induction rs with
  | nil =>
    intro initial i h h1 h2
    simp at h
  | cons r rest ih =>
    intro initial i h h1 h2
    cases i with
    | zero => rfl
    | succ j =>
      have h' : j < rest.length := by simpa using h
      have h1' : j - 1 < rest.length := by omega
      have h2' : j < (chainEdges r.Variable rest).length := by
        rw [chainEdges_length]
        exact h'
      have hstep : (chainEdges initial (r :: rest)).get ⟨j + 1, h2⟩
          = (chainEdges r.Variable rest).get ⟨j, h2'⟩ := by
        simp [chainEdges]
      rw [hstep, ih r.Variable j h' h1' h2']
      cases j with
      | zero => rfl
      | succ k => rfl

/-! ## Only names influence the derivations (noninterference support) -/

/-- The fields of a chain that the graph construction reads: the initial
variable and the entry variable names, in order. -/
def chainSkeleton (c : Chain) : String × List String :=
  (c.InitialVariable, c.Relationships.map (fun r => r.Variable))

theorem chainEdges_congr :
    ∀ (rs₁ rs₂ : List RelationshipEntry) (i₁ i₂ : String), i₁ = i₂ →
      rs₁.map (fun r => r.Variable) = rs₂.map (fun r => r.Variable) →
      chainEdges i₁ rs₁ = chainEdges i₂ rs₂ := by
  intro rs₁
  induction rs₁ with
  | nil =>
    intro rs₂ i₁ i₂ h0 h
    cases rs₂ with
    | nil => rfl
    | cons r₂ rest₂ => simp at h
  | cons r rest ih =>
    intro rs₂ i₁ i₂ h0 h
    cases rs₂ with
    | nil => simp at h
    | cons r₂ rest₂ =>
      simp only [List.map_cons, List.cons.injEq] at h
      simp only [chainEdges, h0, h.1]
      exact congrArg _ (ih rest₂ _ _ rfl h.2)

theorem Variables_skeleton (m : Map) (x : String) :
    x ∈ m.Variables ↔ ∃ p ∈ m.CausalChains.map chainSkeleton,
      x = normalizeVar p.1 ∨ ∃ v ∈ p.2, x = normalizeVar v := by
  rw [mem_Variables]
  simp only [List.mem_map]
  constructor
  · rintro ⟨c, hc, hx⟩
    refine ⟨chainSkeleton c, ⟨c, hc, rfl⟩, ?_⟩
    rcases hx with rfl | ⟨r, hr, rfl⟩
    · exact Or.inl rfl
    · exact Or.inr ⟨r.Variable, List.mem_map.mpr ⟨r, hr, rfl⟩, rfl⟩
  · rintro ⟨p, ⟨c, hc, rfl⟩, hx⟩
    refine ⟨c, hc, ?_⟩
    rcases hx with rfl | ⟨v, hv, rfl⟩
    · exact Or.inl rfl
    · obtain ⟨r, hr, rfl⟩ := List.mem_map.mp hv
      exact Or.inr ⟨r, hr, rfl⟩

theorem Variables_congr {m₁ m₂ : Map}
    (h : m₁.CausalChains.map chainSkeleton = m₂.CausalChains.map chainSkeleton) :
    m₁.Variables = m₂.Variables := by
  ext x
  rw [Variables_skeleton, Variables_skeleton, h]

theorem edgeList_congr {m₁ m₂ : Map}
    (h : m₁.CausalChains.map chainSkeleton = m₂.CausalChains.map chainSkeleton) :
    m₁.edgeList = m₂.edgeList := by
  unfold Map.edgeList
  congr 1
  revert h
  generalize m₁.CausalChains = cs₁
  generalize m₂.CausalChains = cs₂
  induction cs₁ generalizing cs₂ with
  | nil =>
    intro h
    cases cs₂ with
    | nil => rfl
    | cons c₂ rest₂ => simp at h
  | cons c rest ih =>
    intro h
    cases cs₂ with
    | nil => simp at h
    | cons c₂ rest₂ =>
      simp only [List.map_cons, List.cons.injEq] at h
      obtain ⟨h1, h2⟩ := h
      unfold chainSkeleton at h1
      simp only [Prod.mk.injEq] at h1
      simp only [List.map_cons, List.cons.injEq]
      exact ⟨chainEdges_congr _ _ _ _ h1.1 h1.2, ih rest₂ h2⟩

theorem outgoing_congr {m₁ m₂ : Map}
    (h : m₁.CausalChains.map chainSkeleton = m₂.CausalChains.map chainSkeleton) :
    m₁.outgoing = m₂.outgoing := by
  unfold Map.outgoing
  rw [edgeList_congr h]

theorem Loops_congr {m₁ m₂ : Map}
    (h : m₁.CausalChains.map chainSkeleton = m₂.CausalChains.map chainSkeleton) :
    m₁.Loops = m₂.Loops := by
  unfold Map.Loops Map.LoopsWith
  rw [outgoing_congr h]

theorem LoopsWith_congr {m₁ m₂ : Map} (roots : List String)
    (h : m₁.CausalChains.map chainSkeleton = m₂.CausalChains.map chainSkeleton) :
    m₁.LoopsWith roots = m₂.LoopsWith roots := by
  unfold Map.LoopsWith
  rw [outgoing_congr h]

/-! ## Canonicalization is rotation-invariant; acyclic graphs; closed forms -/

theorem rotate_ne_nil {p : List String} (h : p ≠ []) (n : Nat) : p.rotate n ≠ [] := by
  intro hcon
  apply h
  rw [← List.length_eq_zero, ← List.length_rotate p n, hcon]
  rfl

theorem canonicalRotation_rotate {p : List String} (hne : p ≠ []) (hnd : p.Nodup)
    (n : Nat) : canonicalRotation (p.rotate n) = canonicalRotation p := by
  have hne' : p.rotate n ≠ [] := rotate_ne_nil hne n
  apply canonical_head_unique
  · exact ((canonicalRotation_perm (p.rotate n)).trans (List.rotate_perm p n)).nodup_iff.mpr hnd
  · exact ((canonicalRotation_isRotated (p.rotate n)).symm.trans
      (List.IsRotated.symm ⟨n, rfl⟩)).trans (canonicalRotation_isRotated p)
  · exact canonicalRotation_isCanonical hne'
  · exact canonicalRotation_isCanonical hne

/-- Any two entries of the output whose open forms are rotations of each
other are the same entry: a cycle shows up at most once, whatever root or
rotation it was discovered from. -/
theorem LoopsWith_rotation_unique (m : Map) (roots : List String) :
    ∀ l₁ ∈ m.LoopsWith roots, ∀ l₂ ∈ m.LoopsWith roots,
      List.IsRotated l₁.dropLast l₂.dropLast → l₁ = l₂ := by
  intro l₁ h₁ l₂ h₂ hrot
  obtain ⟨c₁, hc₁, hcanon₁, rfl⟩ := LoopsWith_sound m roots l₁ h₁
  obtain ⟨c₂, hc₂, hcanon₂, rfl⟩ := LoopsWith_sound m roots l₂ h₂
  rw [closeLoop_dropLast hc₁.1, closeLoop_dropLast hc₂.1] at hrot
  rw [canonical_head_unique hc₁.2.1 hrot hcanon₁ hcanon₂]

theorem no_cycle_of_no_edges {g : Graph} (hg : ∀ a b, ¬ isEdge g a b) :
    ∀ c, ¬ IsCycleOf g c := by
  rintro c ⟨hne, _, hch⟩
  obtain ⟨a, t, rfl⟩ := List.exists_cons_of_ne_nil hne
  rw [chainOk_iff_chain'] at hch
  have hclose : closeLoop (a :: t) = a :: (t ++ [a]) := by simp [closeLoop]
  rw [hclose] at hch
  cases t with
  | nil =>
    rw [List.nil_append, List.chain'_cons] at hch
    exact hg a a hch.1
  | cons b t' =>
    rw [List.cons_append, List.chain'_cons] at hch
    exact hg a b hch.1

theorem LoopsWith_eq_nil_of_acyclic (m : Map) (roots : List String)
    (h : ∀ c, ¬ IsCycleOf m.outgoing c) : m.LoopsWith roots = [] := by
  rcases hL : m.LoopsWith roots with _ | ⟨l, rest⟩
  · rfl
  · exfalso
    have hl : l ∈ m.LoopsWith roots := by
      rw [hL]
      exact List.mem_cons_self _ _
    obtain ⟨c, hc, _, _⟩ := LoopsWith_sound m roots l hl
    exact h c hc

theorem isEdge_nil {a b : String} : ¬ isEdge [] a b := by
  simp [isEdge, lookupEdges]

theorem outgoing_eq_nil {m : Map} (h : m.edgeList = []) : m.outgoing = [] := by
  unfold Map.outgoing
  rw [h]
  rfl

theorem LoopsWith_eq_nil_of_no_edges (m : Map) (roots : List String)
    (h : m.edgeList = []) : m.LoopsWith roots = [] := by
  apply LoopsWith_eq_nil_of_acyclic
  rw [outgoing_eq_nil h]
  exact no_cycle_of_no_edges fun a b => isEdge_nil

theorem Variables_eq_empty_of_no_chains {m : Map} (h : m.CausalChains = []) :
    m.Variables = ∅ := by
  unfold Map.Variables
  rw [h]
  rfl

theorem edgeList_eq_nil_of_no_chains {m : Map} (h : m.CausalChains = []) :
    m.edgeList = [] := by
  unfold Map.edgeList
  rw [h]
  rfl

theorem Loops_eq_nil_of_no_chains (m : Map) (h : m.CausalChains = []) :
    m.Loops = [] :=
  LoopsWith_eq_nil_of_no_edges m _ (edgeList_eq_nil_of_no_chains h)

theorem closeLoop_head_last {c : List String} (h : c ≠ []) :
    (closeLoop c).head? = (closeLoop c).getLast? := by
  obtain ⟨a, t, rfl⟩ := List.exists_cons_of_ne_nil h
  have hclose : closeLoop (a :: t) = (a :: t) ++ [a] := by simp [closeLoop]
  rw [hclose, List.getLast?_append_of_ne_nil _ (by simp : ([a] : List String) ≠ [])]
  rfl

/-! ## The fuel never matters once it exceeds the vertex count

`search` in Go recurses without a counter; the embedding adds a fuel
argument.  These lemmas show the result is the same for every fuel
strictly greater than the number of unvisited vertices, so the fixed
fuel `fuelFor` used by `findCycles` gives exactly the Go semantics. -/

/-- Every vertex mentioned by the adjacency map: its keys followed by the
neighbor lists. -/
def verts (g : Graph) : List String := (g.map fun e => e.1 :: e.2).flatten

/-- How many vertices of the graph are not yet visited: an upper bound on
the depth the search can still recurse to. -/
def unvisitedCount (g : Graph) (st : SearchState) : Nat :=
  ((verts g).filter fun x => decide (x ∉ st.visited)).length

theorem mem_of_lookup_eq_some {g : Graph} {v : String} {l : List String}
    (h : g.lookup v = some l) : (v, l) ∈ g := by
  induction g with
  | nil => cases h
  | cons e rest ih =>
    obtain ⟨k, b⟩ := e
    simp only [List.lookup] at h
    by_cases hk : (v == k) = true
    · simp only [hk] at h
      obtain rfl := Option.some_inj.mp h
      obtain rfl : v = k := by simpa using hk
      exact List.mem_cons_self _ _
    · rw [Bool.not_eq_true] at hk
      simp only [hk] at h
      exact List.mem_cons_of_mem _ (ih h)

theorem key_mem_verts {g : Graph} {v : String} {l : List String}
    (h : (v, l) ∈ g) : v ∈ verts g := by
  unfold verts
  rw [List.mem_flatten]
  exact ⟨v :: l, List.mem_map.mpr ⟨(v, l), h, rfl⟩, List.mem_cons_self _ _⟩

theorem neighbor_mem_verts {g : Graph} {v nb : String} (h : nb ∈ lookupEdges g v) :
    nb ∈ verts g := by
  unfold lookupEdges at h
  rcases hl : g.lookup v with _ | l
  · rw [hl] at h
    cases h
  · rw [hl] at h
    simp only [Option.getD_some] at h
    unfold verts
    rw [List.mem_flatten]
    exact ⟨v :: l, List.mem_map.mpr ⟨(v, l), mem_of_lookup_eq_some hl, rfl⟩,
      List.mem_cons_of_mem _ h⟩

theorem lookupEdges_eq_nil_of_not_mem_verts {g : Graph} {v : String}
    (h : v ∉ verts g) : lookupEdges g v = [] := by
  unfold lookupEdges
  rcases hl : g.lookup v with _ | l
  · rfl
  · exact absurd (key_mem_verts (mem_of_lookup_eq_some hl)) h

theorem unvisitedCount_le_of_subset {g : Graph} {st₁ st₂ : SearchState}
    (h : st₁.visited ⊆ st₂.visited) : unvisitedCount g st₂ ≤ unvisitedCount g st₁ := by
  unfold unvisitedCount
  apply List.Sublist.length_le
  apply List.monotone_filter_right
  intro a ha
  simp only [decide_eq_true_eq] at ha ⊢
  exact fun hmem => ha (h hmem)

theorem unvisitedCount_lt_of_mark {g : Graph} {st : SearchState} {v : String}
    (hv : v ∈ verts g) (hnv : v ∉ st.visited) (f : List (List String)) :
    unvisitedCount g ⟨v :: st.visited, f⟩ < unvisitedCount g st := by
  unfold unvisitedCount
  have hsub : List.Sublist ((verts g).filter fun x => decide (x ∉ v :: st.visited))
      ((verts g).filter fun x => decide (x ∉ st.visited)) := by
    apply List.monotone_filter_right
    intro a ha
    simp only [decide_eq_true_eq, List.mem_cons] at ha ⊢
    exact fun hmem => ha (Or.inr hmem)
  rcases Nat.lt_or_ge (((verts g).filter fun x => decide (x ∉ v :: st.visited)).length)
    (((verts g).filter fun x => decide (x ∉ st.visited)).length) with hlt | hge
  · exact hlt
  · exfalso
    have hlen : ((verts g).filter fun x => decide (x ∉ v :: st.visited)).length
        = ((verts g).filter fun x => decide (x ∉ st.visited)).length :=
      Nat.le_antisymm (List.Sublist.length_le hsub) hge
    have heq := (List.Sublist.length_eq hsub).mp hlen
    have hvmem : v ∈ (verts g).filter fun x => decide (x ∉ st.visited) := by
      rw [List.mem_filter]
      exact ⟨hv, by simpa using hnv⟩
    rw [← heq, List.mem_filter] at hvmem
    simp at hvmem

theorem search_fuel_irrelevant (g : Graph) :
    ∀ (fuel₁ fuel₂ : Nat) (st : SearchState) (path : List String) (v : String),
      v ∉ st.visited →
      unvisitedCount g st < fuel₁ → unvisitedCount g st < fuel₂ →
      search g fuel₁ st path v = search g fuel₂ st path v := by
  intro fuel₁
  induction fuel₁ with
  | zero =>
    intro fuel₂ st path v _ h₁ _
    omega
  | succ f₁ ih =>
    intro fuel₂ st path v hv h₁ h₂
    cases fuel₂ with
    | zero => omega
    | succ f₂ =>
      rw [search_succ, search_succ]
      by_cases hvg : v ∈ verts g
      · have hmark := unvisitedCount_lt_of_mark hvg hv st.found
        have hfold : ∀ (nbrs : List String) (st' : SearchState),
            (∀ nb ∈ nbrs, nb ∈ verts g) →
            unvisitedCount g st' < f₁ + 1 → unvisitedCount g st' < f₂ + 1 →
            unvisitedCount g st' ≤ unvisitedCount g ⟨v :: st.visited, st.found⟩ →
            nbrs.foldl (searchStep g f₁ (path ++ [v])) st'
              = nbrs.foldl (searchStep g f₂ (path ++ [v])) st' := by
          intro nbrs
          induction nbrs with
          | nil => intro st' _ _ _ _; rfl
          | cons nb rest ihn =>
            intro st' hng hu₁ hu₂ hub
            simp only [List.foldl_cons]
            have hstep : searchStep g f₁ (path ++ [v]) st' nb
                = searchStep g f₂ (path ++ [v]) st' nb := by
              unfold searchStep
              by_cases hnv : nb ∈ st'.visited
              · simp only [hnv, if_true]
              · have hrec : search g f₁ st' (path ++ [v]) nb
                    = search g f₂ st' (path ++ [v]) nb := by
                  apply ih f₂ st' (path ++ [v]) nb hnv
                  · have := unvisitedCount_lt_of_mark (hng nb (List.mem_cons_self _ _))
                      hnv st'.found
                    omega
                  · have := unvisitedCount_lt_of_mark (hng nb (List.mem_cons_self _ _))
                      hnv st'.found
                    omega
                simp only [hnv, if_false, hrec]
            rw [hstep]
            apply ihn _ (fun x hx => hng x (List.mem_cons_of_mem _ hx))
            · exact Nat.lt_of_le_of_lt
                (unvisitedCount_le_of_subset (searchStep_visited_mono g f₂ _ st' nb)) hu₁
            · exact Nat.lt_of_le_of_lt
                (unvisitedCount_le_of_subset (searchStep_visited_mono g f₂ _ st' nb)) hu₂
            · exact Nat.le_trans
                (unvisitedCount_le_of_subset (searchStep_visited_mono g f₂ _ st' nb)) hub
        apply hfold (lookupEdges g v) ⟨v :: st.visited, st.found⟩
          (fun nb hnb => neighbor_mem_verts hnb)
        · omega
        · omega
        · exact Nat.le_refl _
      · rw [lookupEdges_eq_nil_of_not_mem_verts hvg]
        rfl

theorem verts_length_lt_fuelFor (g : Graph) : (verts g).length < fuelFor g := by
  unfold verts fuelFor
  induction g with
  | nil => simp
  | cons e rest ih =>
    simp only [List.map_cons, List.flatten_cons, List.length_append, List.foldl_cons]
    rw [List.length_cons]
    have hshift : ∀ (l : List (String × List String)) (n : Nat),
        l.foldl (fun n e => n + e.2.length + 1) n
          = n + l.foldl (fun n e => n + e.2.length + 1) 0 := by
      intro l
      induction l with
      | nil => intro n; simp
      | cons e' rest' ih' =>
        intro n
        simp only [List.foldl_cons]
        rw [ih' (n + e'.2.length + 1), ih' (0 + e'.2.length + 1)]
        omega
    rw [hshift rest (1 + e.2.length + 1), hshift rest 1] at *
    omega

/-- Running `findCycles` with any fuel beyond the vertex count gives the
same result as the fixed fuel `fuelFor g` it actually uses. -/
theorem findCycles_fuel_sufficient (g : Graph) (roots : List String) (fuel : Nat)
    (h : (verts g).length < fuel) :
    roots.foldl (fun found v => (search g fuel ⟨[], found⟩ [] v).found) []
      = findCycles g roots := by
  rw [findCycles_foldl]
  have hcong : ∀ (rs : List String) (found : List (List String)),
      rs.foldl (fun found v => (search g fuel ⟨[], found⟩ [] v).found) found
        = rs.foldl (fun found v => (search g (fuelFor g) ⟨[], found⟩ [] v).found) found := by
    intro rs
    induction rs with
    | nil => intro found; rfl
    | cons r rest ih =>
      intro found
      simp only [List.foldl_cons]
      have hcount : unvisitedCount g ⟨[], found⟩ ≤ (verts g).length := by
        unfold unvisitedCount
        exact List.length_filter_le _ _
      rw [search_fuel_irrelevant g fuel (fuelFor g) ⟨[], found⟩ [] r (by intro h; cases h)
        (by omega) (by have := verts_length_lt_fuelFor g; omega)]
      exact ih _
  exact hcong roots []

/-! ## Concrete fixtures -/

/-- The complete digraph on three vertices, entered one edge per chain, in
the order a->b, a->c, b->c, b->a, c->a, c->b (so the adjacency lists are
a:[b,c], b:[c,a], c:[a,b]). -/
def k3Map : Map := NewMap
  [ ⟨"a", "b", "+", "", ""⟩, ⟨"a", "c", "+", "", ""⟩, ⟨"b", "c", "+", "", ""⟩,
    ⟨"b", "a", "+", "", ""⟩, ⟨"c", "a", "+", "", ""⟩, ⟨"c", "b", "+", "", ""⟩ ]

/-- The regression fixture of the specification: the seven edges of the
American-Revolution example, one per chain, in the listed order. -/
def fixtureMap : Map := NewMap
  [ ⟨"TaxBurden", "Tensions", "+", "", ""⟩, ⟨"TaxBurden", "Resistance", "+", "", ""⟩,
    ⟨"Tensions", "Clashes", "+", "", ""⟩, ⟨"Resistance", "Clashes", "+", "", ""⟩,
    ⟨"Clashes", "Tensions", "+", "", ""⟩, ⟨"Clashes", "Resistance", "+", "", ""⟩,
    ⟨"Tensions", "TaxBurden", "+", "", ""⟩ ]

/-- A single self-loop v -> v. -/
def selfLoopMap : Map := NewMap [⟨"v", "v", "+", "", ""⟩]

/-- One chain with an initial variable and no relationship entries: it
contributes no edges, but its initial variable is still recorded. -/
def emptyChainMap : Map := ⟨"", "", [⟨"A", [], ""⟩]⟩

/-- A map with no chains at all. -/
def emptyMap : Map := ⟨"", "", []⟩

/-! ## The claims -/

/-- C1: the specification claims `Loops()` enumerates every distinct
simple cycle of the graph.  The code does not: on the complete digraph on
{a, b, c} the sequence a, c, b is a simple cycle (a->c, c->b, b->a), it is
already in canonical rotation, yet its closed form [a, c, b, a] is absent
from the returned list, which holds only the three 2-cycles and the one
3-cycle a, b, c.  The depth-first search's `visited` set prevents the
second 3-cycle from ever being traversed contiguously, from any root. -/
theorem C1_loops_incomplete :
    IsCycleOf k3Map.outgoing ["a", "c", "b"]
    ∧ IsCanonical ["a", "c", "b"]
    ∧ k3Map.Loops =
        [["a", "b", "a"], ["a", "c", "a"], ["b", "c", "b"], ["a", "b", "c", "a"]]
    ∧ closeLoop ["a", "c", "b"] ∉ k3Map.Loops := by decide

/-- C2: on the regression fixture (edges TaxBurden->Tensions,
TaxBurden->Resistance, Tensions->Clashes, Resistance->Clashes,
Clashes->Tensions, Clashes->Resistance, Tensions->TaxBurden), `Loops()`
returns exactly the four claimed loops — whatever order the map's keys
are iterated in — namely the normalized forms of
[Clashes,Resistance,Clashes], [Clashes,Tensions,Clashes],
[TaxBurden,Tensions,TaxBurden] and
[Clashes,Tensions,TaxBurden,Resistance,Clashes], in that (sorted)
order. -/
theorem C2_regression_fixture (roots : List String)
    (h : List.Perm roots (keys fixtureMap.outgoing)) :
    fixtureMap.LoopsWith roots =
      [ [normalizeVar "Clashes", normalizeVar "Resistance", normalizeVar "Clashes"],
        [normalizeVar "Clashes", normalizeVar "Tensions", normalizeVar "Clashes"],
        [normalizeVar "TaxBurden", normalizeVar "Tensions", normalizeVar "TaxBurden"],
        [normalizeVar "Clashes", normalizeVar "Tensions", normalizeVar "TaxBurden",
         normalizeVar "Resistance", normalizeVar "Clashes"] ] := by
  rw [LoopsWith_root_perm fixtureMap h]
  decide

theorem C2_regression_fixture_witness :
    List.Perm ["tensions", "clashes", "taxburden", "resistance"]
      (keys fixtureMap.outgoing)
    ∧ fixtureMap.LoopsWith ["tensions", "clashes", "taxburden", "resistance"] =
      [ [normalizeVar "Clashes", normalizeVar "Resistance", normalizeVar "Clashes"],
        [normalizeVar "Clashes", normalizeVar "Tensions", normalizeVar "Clashes"],
        [normalizeVar "TaxBurden", normalizeVar "Tensions", normalizeVar "TaxBurden"],
        [normalizeVar "Clashes", normalizeVar "Tensions", normalizeVar "TaxBurden",
         normalizeVar "Resistance", normalizeVar "Clashes"] ] :=
  ⟨by decide, C2_regression_fixture _ (by decide)⟩

/-- C3 counterexample: a chain with an initial variable but no
relationship entries produces no edges, yet `Variables()` still contains
the normalized initial variable, so `Variables()` is not the set of edge
endpoints for every Map. -/
theorem C3_counterexample :
    emptyChainMap.edgeList = []
    ∧ normalizeVar "A" ∈ emptyChainMap.Variables
    ∧ emptyChainMap.Variables ≠ endpointSet emptyChainMap := by decide

/-- C3 (amended): when every chain has at least one relationship entry,
`Variables()` equals exactly the set of normalized vertices appearing as
an edge endpoint, two spellings that normalize equally collapsing to one
element. -/
theorem C3_variables_eq_endpoints (m : Map)
    (h : ∀ c ∈ m.CausalChains, c.Relationships ≠ []) :
    m.Variables = endpointSet m := by
  ext x
  rw [mem_Variables, mem_endpointSet]
  constructor
  · rintro ⟨c, hc, hx⟩
    obtain ⟨e, he, hxe⟩ :=
      (endpoint_chainEdges c.Relationships c.InitialVariable (h c hc)).mp hx
    exact ⟨e, mem_edgeList.mpr ⟨c, hc, he⟩, hxe⟩
  · rintro ⟨e, he, hxe⟩
    obtain ⟨c, hc, he'⟩ := mem_edgeList.mp he
    have hne : c.Relationships ≠ [] := by
      intro hnil
      rw [hnil] at he'
      cases he'
    exact ⟨c, hc, (endpoint_chainEdges _ _ hne).mpr ⟨e, he', hxe⟩⟩

theorem C3_variables_eq_endpoints_witness :
    (∀ c ∈ fixtureMap.CausalChains, c.Relationships ≠ [])
    ∧ fixtureMap.Variables = endpointSet fixtureMap :=
  ⟨by decide, C3_variables_eq_endpoints fixtureMap (by decide)⟩

/-- C4: every recorded cycle is rotated so its least vertex comes first
(rotating the input does not change the canonical form), exact repeats
are discarded, and consequently the output never lists two element-wise
equal entries, and two entries that are rotations of one another are the
same entry — one entry per distinct discovered cycle, whatever root or
rotation the search found it from. -/
theorem C4_canonical_dedup (m : Map) (roots : List String) :
    (m.LoopsWith roots).Nodup
    ∧ (∀ p : List String, p ≠ [] → p.Nodup → ∀ n : Nat,
        canonicalRotation (p.rotate n) = canonicalRotation p)
    ∧ ∀ l₁ ∈ m.LoopsWith roots, ∀ l₂ ∈ m.LoopsWith roots,
        List.IsRotated l₁.dropLast l₂.dropLast → l₁ = l₂ :=
  ⟨LoopsWith_nodup m roots,
   fun _ hne hnd n => canonicalRotation_rotate hne hnd n,
   LoopsWith_rotation_unique m roots⟩

theorem C4_canonical_dedup_witness :
    (fixtureMap.LoopsWith (keys fixtureMap.outgoing)).Nodup
    ∧ canonicalRotation (["b", "a", "c"].rotate 2) = canonicalRotation ["b", "a", "c"]
    ∧ ["taxburden", "tensions", "taxburden"] = ["taxburden", "tensions", "taxburden"] :=
  ⟨(C4_canonical_dedup fixtureMap (keys fixtureMap.outgoing)).1,
   (C4_canonical_dedup fixtureMap (keys fixtureMap.outgoing)).2.1
     ["b", "a", "c"] (by decide) (by decide) 2,
   (C4_canonical_dedup fixtureMap (keys fixtureMap.outgoing)).2.2
     ["taxburden", "tensions", "taxburden"] (by decide)
     ["taxburden", "tensions", "taxburden"] (by decide)
     ⟨0, List.rotate_zero _⟩⟩

/-- C5: a chain with n relationship entries yields exactly n directed
edges; edge 0 runs from the chain's initial variable to entry 0's
variable and edge i (i ≥ 1) from entry i-1's variable to entry i's
variable, all names normalized. -/
theorem C5_chain_edges (c : Chain) :
    (chainEdges c.InitialVariable c.Relationships).length = c.Relationships.length
    ∧ ∀ (i : Nat) (h : i < c.Relationships.length)
        (h1 : i - 1 < c.Relationships.length)
        (h2 : i < (chainEdges c.InitialVariable c.Relationships).length),
        (chainEdges c.InitialVariable c.Relationships).get ⟨i, h2⟩ =
          (normalizeVar (if i = 0 then c.InitialVariable
                         else (c.Relationships.get ⟨i - 1, h1⟩).Variable),
           normalizeVar (c.Relationships.get ⟨i, h⟩).Variable) :=
  ⟨chainEdges_length _ _, fun i h h1 h2 => chainEdges_get _ _ i h h1 h2⟩

theorem C5_chain_edges_witness :
    (chainEdges (Chain.mk "Start" [⟨"A", "+", ""⟩, ⟨"B", "+", ""⟩] "r").InitialVariable
      (Chain.mk "Start" [⟨"A", "+", ""⟩, ⟨"B", "+", ""⟩] "r").Relationships).length = 2
    ∧ (chainEdges "Start" [⟨"A", "+", ""⟩, ⟨"B", "+", ""⟩]).get ⟨1, by decide⟩ =
        (normalizeVar (if 1 = 0 then "Start"
                       else (([⟨"A", "+", ""⟩, ⟨"B", "+", ""⟩] :
                          List RelationshipEntry).get ⟨0, by decide⟩).Variable),
         normalizeVar (([⟨"A", "+", ""⟩, ⟨"B", "+", ""⟩] :
            List RelationshipEntry).get ⟨1, by decide⟩).Variable) :=
  ⟨(C5_chain_edges (Chain.mk "Start" [⟨"A", "+", ""⟩, ⟨"B", "+", ""⟩] "r")).1,
   (C5_chain_edges (Chain.mk "Start" [⟨"A", "+", ""⟩, ⟨"B", "+", ""⟩] "r")).2
     1 (by decide) (by decide) (by decide)⟩

/-- C6: the returned list is sorted by length first and lexicographic
vertex comparison second (no entry compares greater than a later one),
it is a permutation of the closed forms of the discovered cycles (the
stable sort only reorders), and two entries comparing equal are
element-wise identical — so ties cannot reorder distinct entries and
discovery order survives the stable sort. -/
theorem C6_sorted (m : Map) (roots : List String) :
    (m.LoopsWith roots).Pairwise loopLe
    ∧ List.Perm (m.LoopsWith roots) ((findCycles m.outgoing roots).map closeLoop)
    ∧ (∀ a b : List String, loopCmp a b = Ordering.eq → a = b) :=
  ⟨LoopsWith_sorted m roots, LoopsWith_perm m roots, fun _ _ => loopCmp_eq_iff.mp⟩

theorem C6_sorted_witness :
    (fixtureMap.LoopsWith (keys fixtureMap.outgoing)).Pairwise loopLe
    ∧ (["clashes", "resistance"] : List String) = ["clashes", "resistance"] :=
  ⟨(C6_sorted fixtureMap (keys fixtureMap.outgoing)).1,
   (C6_sorted fixtureMap (keys fixtureMap.outgoing)).2.2
     ["clashes", "resistance"] ["clashes", "resistance"] (by decide)⟩

/-- C7: `Loops()` is deterministic — the output is a function of the Map
alone, and in particular any two iteration orders of the vertex map's
keys (any two permutations of the root list) produce identical output
lists. -/
theorem C7_deterministic (m : Map) (roots₁ roots₂ : List String)
    (h : List.Perm roots₁ roots₂) :
    m.LoopsWith roots₁ = m.LoopsWith roots₂ :=
  LoopsWith_root_perm m h

theorem C7_deterministic_witness :
    List.Perm ["resistance", "taxburden", "clashes", "tensions"]
      (keys fixtureMap.outgoing)
    ∧ fixtureMap.LoopsWith ["resistance", "taxburden", "clashes", "tensions"] =
        fixtureMap.LoopsWith (keys fixtureMap.outgoing) :=
  ⟨by decide,
   C7_deterministic fixtureMap _ _ (by decide)⟩

/-- C8 counterexample: a Map holding one chain with no relationship
entries has no edges, yet its variable set is not empty — it contains the
chain's normalized initial variable — refuting "a Map with no edges
yields an empty variable set". -/
theorem C8_counterexample :
    emptyChainMap.edgeList = [] ∧ emptyChainMap.Variables ≠ ∅ := by decide

/-- C8 (amended): `Variables()` and `Loops()` are total; a Map with no
chains yields an empty variable set and an empty loop list, a Map with
no edges yields an empty loop list (its variable set still lists each
chain's initial variable), a graph with no simple cycles yields an empty
loop list, and a self-loop v -> v yields the closed loop [v, v]. -/
theorem C8_totality (m : Map) (roots : List String) :
    (m.CausalChains = [] → m.Variables = ∅ ∧ m.Loops = [])
    ∧ (m.edgeList = [] → m.LoopsWith roots = [])
    ∧ ((∀ c, ¬ IsCycleOf m.outgoing c) → m.LoopsWith roots = [])
    ∧ selfLoopMap.Loops = [["v", "v"]] := by
  refine ⟨?_, ?_, ?_, by decide⟩
  · intro h
    exact ⟨Variables_eq_empty_of_no_chains h, Loops_eq_nil_of_no_chains m h⟩
  · intro h
    exact LoopsWith_eq_nil_of_no_edges m roots h
  · intro h
    exact LoopsWith_eq_nil_of_acyclic m roots h

theorem C8_totality_witness :
    (emptyMap.Variables = ∅ ∧ emptyMap.Loops = [])
    ∧ emptyChainMap.LoopsWith ["a"] = []
    ∧ emptyMap.LoopsWith [] = []
    ∧ selfLoopMap.Loops = [["v", "v"]] :=
  ⟨(C8_totality emptyMap [] ).1 rfl,
   (C8_totality emptyChainMap ["a"]).2.1 (by decide),
   (C8_totality emptyMap []).2.2.1 (by
     rw [outgoing_eq_nil (edgeList_eq_nil_of_no_chains rfl)]
     exact no_cycle_of_no_edges fun a b => isEdge_nil),
   (C8_totality emptyMap []).2.2.2⟩

/-- C9 counterexample: for the self-loop Map, `Loops()` returns the entry
[v, v], whose vertex sequence has a single distinct vertex — refuting
"every element consists of at least 2 distinct vertices". -/
theorem C9_counterexample :
    ["v", "v"] ∈ selfLoopMap.Loops
    ∧ (["v", "v"] : List String).dedup.length = 1 := by decide

/-- C9 (amended): every element of the returned list is a closed cycle
with at least one vertex: the closed form `c ++ [c.head]` of a nonempty
duplicate-free vertex sequence `c` in which every consecutive pair —
including the closing pair — is a valid edge of the normalized edge
list; in particular the first and last elements coincide and no vertex
other than the repeated endpoint appears twice. -/
theorem C9_closed_cycles (m : Map) (roots : List String) :
    ∀ l ∈ m.LoopsWith roots, ∃ c, IsCycleOf m.outgoing c
      ∧ l = closeLoop c ∧ l.head? = l.getLast? := by
  intro l hl
  obtain ⟨c, hc, _, rfl⟩ := LoopsWith_sound m roots l hl
  exact ⟨c, hc, rfl, closeLoop_head_last hc.1⟩

theorem C9_closed_cycles_witness :
    ["v", "v"] ∈ selfLoopMap.LoopsWith (keys selfLoopMap.outgoing)
    ∧ ∃ c, IsCycleOf selfLoopMap.outgoing c
        ∧ ["v", "v"] = closeLoop c
        ∧ (["v", "v"] : List String).head? = (["v", "v"] : List String).getLast? :=
  ⟨by decide,
   C9_closed_cycles selfLoopMap (keys selfLoopMap.outgoing) ["v", "v"] (by decide)⟩

/-- C10: the Polarity, PolarityReasoning, Reasoning, Title and
Explanation fields have no influence on `Variables()` or `Loops()`: two
Maps whose chains agree on the initial variables and entry variable
names (in order) produce equal variable sets and identical loop lists,
for the default root order as well as any explicitly chosen one. -/
theorem C10_noninterference (m₁ m₂ : Map)
    (h : m₁.CausalChains.map chainSkeleton = m₂.CausalChains.map chainSkeleton) :
    m₁.Variables = m₂.Variables ∧ m₁.Loops = m₂.Loops
      ∧ ∀ roots, m₁.LoopsWith roots = m₂.LoopsWith roots :=
  ⟨Variables_congr h, Loops_congr h, fun roots => LoopsWith_congr roots h⟩

/-- A copy of the regression fixture with different title, explanation,
polarities and reasoning texts on every chain. -/
def fixtureMapAlt : Map :=
  ⟨"Another Title", "Another explanation",
    fixtureMap.CausalChains.map fun c =>
      ⟨c.InitialVariable,
       c.Relationships.map fun r => ⟨r.Variable, "-", "different reasoning"⟩,
       "other chain reasoning"⟩⟩

theorem C10_noninterference_witness :
    fixtureMap.CausalChains.map chainSkeleton
      = fixtureMapAlt.CausalChains.map chainSkeleton
    ∧ fixtureMap.Variables = fixtureMapAlt.Variables
    ∧ fixtureMap.Loops = fixtureMapAlt.Loops :=
  ⟨by decide,
   (C10_noninterference fixtureMap fixtureMapAlt (by decide)).1,
   (C10_noninterference fixtureMap fixtureMapAlt (by decide)).2.1⟩

end Causal
